import Mathlib

/-!
Verification of the Panda-Q message broker core against its specification.

The development shallowly embeds the TypeScript sources:
  * `shared/queue.ts` (the FIFO queue over a JS `Map` with front/rear counters),
  * `partition.ts` (per-partition buffer with `push` / `batchExtract` /
    `commitOffset` and WAL-based recovery),
  * `ingress-buffer.ts` (staged batched-flush ingress buffer),
  * `topic.ts` (SHA-256 based routing),
  * `broker.ts` (consumer registration against the TPC map).

JS `number` offsets are embedded as `Nat` (the spec types all offsets as
`uint64`); where the code subtracts possibly-negative quantities the
embedding uses `Int` at exactly that spot.  Disk appends are modelled by an
explicit success flag (`appendOk`), since WAL-append failure is part of the
error contract; metadata-file rewrites are modelled as infallible state
updates (the spec assigns them no error kind of their own).
-/

namespace PandaQ

/-- Message record, from `shared/types.ts`:
`{ topicId: string; messageId: string; content: string }`. -/
structure Message where
  topicId : String
  messageId : String
  content : String
deriving DecidableEq, Repr

/-- Error codes used by the core (`shared/error-codes.ts` is referenced by
every module; the tag names are taken from the call sites in `src`). -/
inductive ErrorCode where
  | BUFFER_FULL
  | BUFFER_EMPTY
  | LOG_FILE_APPEND_FAILED
  | INVALID_OFFSET
  | TOPIC_NOT_FOUND
  | PARTITION_NOT_FOUND
  | NO_PARTITION_AVAILABLE
  | BUFFER_BUILD_FAILED
  | UNKNOWN_ERROR
deriving DecidableEq, Repr

/-- Tagged result type, from `shared/types.ts`
(`Response<T> = SuccessResponse<T> | ErrorResponse`). -/
inductive Response (α : Type) where
  | ok (data : α)
  | err (code : ErrorCode)
deriving DecidableEq, Repr

namespace Response

def isOk {α : Type} : Response α → Bool
  | .ok _ => true
  | .err _ => false

end Response

/-! ## JS `Map` model

`shared/queue.ts` stores queue items in a JavaScript `Map<number, T>`.
The embedding is an insertion-ordered association list with
`set` / `get` / `delete` following the `Map` API. -/

/-- `Map.get(k)`: value of the first entry with key `k`, if any. -/
def mapGet {T : Type} (l : List (Nat × T)) (k : Nat) : Option T :=
  (l.find? (fun e => e.1 = k)).map (fun e => e.2)

/-- `Map.set(k, v)`: replace the value at an existing key `k`, else append a
new entry (JS `Map` keeps insertion order). -/
def mapSet {T : Type} (l : List (Nat × T)) (k : Nat) (v : T) : List (Nat × T) :=
  if l.any (fun e => e.1 = k) then
    l.map (fun e => if e.1 = k then (k, v) else e)
  else
    l ++ [(k, v)]

/-- `Map.delete(k)`: remove the entry with key `k` (a JS `Map` holds at most
one entry per key). -/
def mapDelete {T : Type} (l : List (Nat × T)) (k : Nat) : List (Nat × T) :=
  l.eraseP (fun e => e.1 = k)

theorem mapGet_eq_none_of_forall {T : Type} {l : List (Nat × T)} {k : Nat}
    (h : ∀ e ∈ l, e.1 ≠ k) : mapGet l k = none := by
  unfold mapGet
  rw [List.find?_eq_none.mpr]
  · rfl
  · intro e he
    simpa using h e he

theorem eq_nil_of_forall_ne {T : Type} {l : List (Nat × T)}
    (h : ∀ e ∈ l, False) : l = [] := by
  cases l with
  | nil => rfl
  | cons e es => exact absurd (h e (List.mem_cons_self e es)) id

theorem mapSet_of_absent {T : Type} {l : List (Nat × T)} {k : Nat} (v : T)
    (h : ∀ e ∈ l, e.1 ≠ k) : mapSet l k v = l ++ [(k, v)] := by
  unfold mapSet
  rw [if_neg]
  intro hc
  rw [List.any_eq_true] at hc
  obtain ⟨e, hmem, hek⟩ := hc
  exact h e hmem (by simpa using hek)

theorem mapGet_cons {T : Type} (e : Nat × T) (es : List (Nat × T)) (k : Nat) :
    mapGet (e :: es) k = if e.1 = k then some e.2 else mapGet es k := by
  unfold mapGet
  by_cases hp : e.1 = k
  · simp [List.find?, hp]
  · simp [List.find?, hp]

theorem mapGet_append_single {T : Type} {l : List (Nat × T)} {k' : Nat} (k : Nat) (v : T)
    (h : mapGet l k' = none) :
    mapGet (l ++ [(k, v)]) k' = if k = k' then some v else none := by
  induction l with
  | nil =>
    rw [List.nil_append, mapGet_cons]
    by_cases hk : k = k' <;> simp [hk, mapGet]
  | cons e es ih =>
    rw [mapGet_cons] at h
    rw [List.cons_append, mapGet_cons]
    by_cases hp : e.1 = k'
    · simp [hp] at h
    · simp only [hp, if_false] at h ⊢
      exact ih h

theorem mapGet_append_of_some {T : Type} {l : List (Nat × T)} {k' : Nat} {w : T}
    (k : Nat) (v : T) (h : mapGet l k' = some w) :
    mapGet (l ++ [(k, v)]) k' = some w := by
  induction l with
  | nil => simp [mapGet, List.find?] at h
  | cons e es ih =>
    rw [mapGet_cons] at h
    rw [List.cons_append, mapGet_cons]
    by_cases hp : e.1 = k'
    · simpa [hp] using h
    · simp only [hp, if_false] at h ⊢
      exact ih h

theorem mapGet_mapDelete_ne {T : Type} (l : List (Nat × T)) (k k' : Nat)
    (h : k' ≠ k) : mapGet (mapDelete l k) k' = mapGet l k' := by
  unfold mapDelete mapGet
  induction l with
  | nil => rfl
  | cons e es ih =>
    by_cases he : e.1 = k
    · rw [List.eraseP_cons_of_pos (by simp [he])]
      have hne : decide (e.1 = k') = false := by
        apply decide_eq_false
        rw [he]
        exact Ne.symm h
      simp only [List.find?, hne]
    · rw [List.eraseP_cons_of_neg (by simp [he])]
      simp only [List.find?]
      cases hd : (decide (e.1 = k')) with
      | true => rfl
      | false => exact ih

theorem mem_mapDelete_ne {T : Type} {l : List (Nat × T)} {k : Nat}
    (hnd : (l.map Prod.fst).Nodup) {e : Nat × T} (he : e ∈ mapDelete l k) :
    e.1 ≠ k := by
  unfold mapDelete at he
  induction l with
  | nil => simp at he
  | cons a as ih =>
    simp only [List.map_cons, List.nodup_cons] at hnd
    by_cases ha : a.1 = k
    · rw [List.eraseP_cons_of_pos (by simp [ha])] at he
      intro hek
      apply hnd.1
      rw [ha, ← hek]
      exact List.mem_map_of_mem Prod.fst he
    · rw [List.eraseP_cons_of_neg (by simp [ha])] at he
      rcases List.mem_cons.mp he with rfl | he2
      · exact ha
      · exact ih hnd.2 he2

theorem mem_of_mem_mapDelete {T : Type} {l : List (Nat × T)} {k : Nat}
    {e : Nat × T} (he : e ∈ mapDelete l k) : e ∈ l :=
  List.mem_of_mem_eraseP he

theorem mapDelete_sublist {T : Type} (l : List (Nat × T)) (k : Nat) :
    (mapDelete l k).Sublist l :=
  List.eraseP_sublist l

/-! ## FIFO queue (`shared/queue.ts`, lines 1-64)

`class Queue<T>` holds a `Map<number, T>` together with `frontOffset` and
`rearOffset` counters. -/

structure Queue (T : Type) where
  queue : List (Nat × T)
  frontOffset : Nat
  rearOffset : Nat
deriving DecidableEq, Repr

namespace Queue

/-- `constructor()`: empty map, both counters 0. -/
def init (T : Type) : Queue T := ⟨[], 0, 0⟩

/-- `enqueue(item)`: `queue.set(rearOffset, item); rearOffset++`. -/
def enqueue {T : Type} (q : Queue T) (item : T) : Queue T :=
  { q with queue := mapSet q.queue q.rearOffset item, rearOffset := q.rearOffset + 1 }

/-- `isEmpty()`: `rearOffset === frontOffset`. -/
def isEmpty {T : Type} (q : Queue T) : Bool := q.rearOffset == q.frontOffset

/-- `size()`: `rearOffset - frontOffset`. -/
def size {T : Type} (q : Queue T) : Nat := q.rearOffset - q.frontOffset

/-- `peek()`: `queue.get(frontOffset)`. -/
def peek {T : Type} (q : Queue T) : Option T := mapGet q.queue q.frontOffset

/-- `dequeue()`: on the empty queue return `undefined`; otherwise read and
delete the entry at `frontOffset`, increment `frontOffset`, and reset both
counters to 0 when the queue has just become empty. -/
def dequeue {T : Type} (q : Queue T) : Option T × Queue T :=
  if q.isEmpty then (none, q)
  else
    let item := mapGet q.queue q.frontOffset
    let q1 : Queue T :=
      { q with queue := mapDelete q.queue q.frontOffset, frontOffset := q.frontOffset + 1 }
    if q1.isEmpty then (item, { q1 with frontOffset := 0, rearOffset := 0 })
    else (item, q1)

/-- `clear()`: `queue.clear()` and reset both counters to 0. -/
def clear {T : Type} (_q : Queue T) : Queue T := ⟨[], 0, 0⟩

/-- Modelled from the spec: `peekBatch(n)` is absent from `src` (only its
call site in `partition.ts` survives).  Per §4.1 it "returns the next up to
`n` items without removing them, preserving order": read the map at
consecutive keys starting from `frontOffset`. -/
def peekBatchAux {T : Type} (q : Queue T) : Nat → Nat → List T
  | _, 0 => []
  | k, c + 1 =>
    match mapGet q.queue k with
    | none => []
    | some x => x :: peekBatchAux q (k + 1) c

/-- Modelled from the spec (§4.1): `peekBatch(n)` returns up to
`min n size` items from the front, without mutating the queue. -/
def peekBatch {T : Type} (q : Queue T) (n : Nat) : List T :=
  q.peekBatchAux q.frontOffset (min n q.size)

/-- Modelled from the spec: a `peekBatch` call as a state transformer (the
method reads but never writes the queue, so the state component is the
input queue itself). -/
def peekBatchCall {T : Type} (q : Queue T) (n : Nat) : List T × Queue T :=
  (q.peekBatch n, q)

/-- Modelled from the spec: `dequeueBatch(n)` is absent from `src` (only its
call site in `partition.ts` survives).  Per §4.1 it dequeues and returns the
next up to `n` items: `n` repeated `dequeue` calls, stopping when empty. -/
def dequeueBatch {T : Type} (q : Queue T) : Nat → List T × Queue T
  | 0 => ([], q)
  | n + 1 =>
    match q.dequeue with
    | (none, q1) => ([], q1)
    | (some x, q1) =>
      let r := q1.dequeueBatch n
      (x :: r.1, r.2)

/-- Abstraction relation: the queue object represents the list `items`,
i.e. the map holds exactly the keys `frontOffset ≤ k < rearOffset` (each
once) and the value at `frontOffset + i` is `items[i]`. -/
def Represents {T : Type} (q : Queue T) (items : List T) : Prop :=
  q.frontOffset ≤ q.rearOffset ∧
  items.length = q.rearOffset - q.frontOffset ∧
  (∀ i < items.length, mapGet q.queue (q.frontOffset + i) = items[i]?) ∧
  (∀ e ∈ q.queue, q.frontOffset ≤ e.1 ∧ e.1 < q.rearOffset) ∧
  (q.queue.map Prod.fst).Nodup

instance decRepresents {T : Type} [DecidableEq T] (q : Queue T) (items : List T) :
    Decidable (Represents q items) := by
  unfold Represents
  infer_instance

theorem represents_init (T : Type) : Represents (init T) [] := by
  refine ⟨Nat.le_refl 0, rfl, ?_, ?_, List.nodup_nil⟩
  · intro i hi
    simp at hi
  · intro e he
    simp [init] at he

theorem Represents.size_eq {T : Type} {q : Queue T} {items : List T}
    (h : Represents q items) : q.size = items.length := by
  unfold size
  exact h.2.1.symm

theorem Represents.isEmpty_iff {T : Type} {q : Queue T} {items : List T}
    (h : Represents q items) : q.isEmpty = true ↔ items = [] := by
  unfold isEmpty
  rw [beq_iff_eq]
  have h1 := h.1
  have h2 := h.2.1
  constructor
  · intro he
    apply List.eq_nil_of_length_eq_zero
    omega
  · intro he
    subst he
    simp only [List.length_nil] at h2
    omega

theorem Represents.peek_eq {T : Type} {q : Queue T} {items : List T}
    (h : Represents q items) : q.peek = items[0]? := by
  unfold peek
  cases items with
  | nil =>
    refine (mapGet_eq_none_of_forall ?_).trans rfl
    intro e he
    have h1 := (h.2.2.2.1 e he).1
    have h2 := (h.2.2.2.1 e he).2
    have h3 := h.2.1
    simp only [List.length_nil] at h3
    omega
  | cons x rest =>
    have := h.2.2.1 0 (by simp)
    simpa using this

theorem represents_enqueue {T : Type} {q : Queue T} {items : List T}
    (h : Represents q items) (x : T) : Represents (q.enqueue x) (items ++ [x]) := by
  obtain ⟨hle, hlen, hget, hrange, hnd⟩ := h
  have habsent : ∀ e ∈ q.queue, e.1 ≠ q.rearOffset := by
    intro e he
    exact Nat.ne_of_lt (hrange e he).2
  have hset : mapSet q.queue q.rearOffset x = q.queue ++ [(q.rearOffset, x)] :=
    mapSet_of_absent x habsent
  refine ⟨?_, ?_, ?_, ?_, ?_⟩
  · exact Nat.le_succ_of_le hle
  · simp only [enqueue, List.length_append, List.length_singleton, hlen]
    omega
  · intro i hi
    simp only [enqueue, hset]
    simp only [List.length_append, List.length_singleton] at hi
    rcases Nat.lt_or_ge i items.length with hlt | hge
    · have hsome : items[i]? = some items[i] := List.getElem?_eq_getElem hlt
      have hq : mapGet q.queue (q.frontOffset + i) = some items[i] := by
        rw [hget i hlt, hsome]
      rw [mapGet_append_of_some _ _ hq, List.getElem?_append_left hlt, hsome]
    · have hieq : i = items.length := by omega
      subst hieq
      have hnone : mapGet q.queue (q.frontOffset + items.length) = none := by
        apply mapGet_eq_none_of_forall
        intro e he
        have := (hrange e he).2
        omega
      rw [mapGet_append_single _ _ hnone]
      have hkey : q.rearOffset = q.frontOffset + items.length := by omega
      rw [if_pos hkey]
      rw [List.getElem?_append_right (Nat.le_refl _)]
      simp
  · intro e he
    simp only [enqueue, hset, List.mem_append, List.mem_singleton] at he
    simp only [enqueue]
    rcases he with he | he
    · have := hrange e he
      omega
    · subst he
      simp only []
      omega
  · simp only [enqueue, hset, List.map_append, List.map_singleton]
    rw [List.nodup_append]
    refine ⟨hnd, List.nodup_singleton _, ?_⟩
    intro a ha
    simp only [List.mem_singleton]
    intro hb
    subst hb
    obtain ⟨e, he, hee⟩ := List.mem_map.mp ha
    exact habsent e he hee

theorem represents_dequeue_nil {T : Type} {q : Queue T}
    (h : Represents q []) : q.dequeue = (none, q) := by
  have he : q.isEmpty = true := h.isEmpty_iff.mpr rfl
  unfold dequeue
  rw [if_pos he]

theorem represents_dequeue_cons {T : Type} {q : Queue T} {x : T} {rest : List T}
    (h : Represents q (x :: rest)) :
    ∃ q1, q.dequeue = (some x, q1) ∧ Represents q1 rest := by
  obtain ⟨hle, hlen, hget, hrange, hnd⟩ := h
  have hlen' : rest.length + 1 = q.rearOffset - q.frontOffset := by simpa using hlen
  have hempty : q.isEmpty = false := by
    unfold isEmpty
    simp only [beq_eq_false_iff_ne, ne_eq]
    omega
  have hx : mapGet q.queue q.frontOffset = some x := by
    have := hget 0 (by simp)
    simpa using this
  have hmem1 : ∀ e ∈ mapDelete q.queue q.frontOffset,
      q.frontOffset + 1 ≤ e.1 ∧ e.1 < q.rearOffset := by
    intro e he
    have h1 := hrange e (mem_of_mem_mapDelete he)
    have h2 := mem_mapDelete_ne hnd he
    omega
  have hnd1 : ((mapDelete q.queue q.frontOffset).map Prod.fst).Nodup :=
    ((mapDelete_sublist q.queue q.frontOffset).map Prod.fst).nodup hnd
  cases rest with
  | nil =>
    -- the queue becomes empty: counters are reset and the map is exhausted
    have hr : q.rearOffset = q.frontOffset + 1 := by
      simp only [List.length_nil] at hlen'
      omega
    have hqnil : mapDelete q.queue q.frontOffset = [] := by
      apply eq_nil_of_forall_ne
      intro e he
      have := hmem1 e he
      omega
    refine ⟨⟨[], 0, 0⟩, ?_, represents_init T⟩
    unfold dequeue
    rw [if_neg (by simp [hempty])]
    simp only [hx]
    rw [if_pos (by unfold isEmpty; simp [hr])]
    simp [hqnil]
  | cons y ys =>
    have hr : q.frontOffset + 1 < q.rearOffset := by
      simp only [List.length_cons] at hlen'
      omega
    refine ⟨⟨mapDelete q.queue q.frontOffset, q.frontOffset + 1, q.rearOffset⟩, ?_, ?_⟩
    · unfold dequeue
      rw [if_neg (by simp [hempty])]
      simp only [hx]
      rw [if_neg (by unfold isEmpty; simp; omega)]
    · refine ⟨Nat.le_of_lt hr, ?_, ?_, hmem1, hnd1⟩
      · show (y :: ys).length = q.rearOffset - (q.frontOffset + 1)
        simp only [List.length_cons] at hlen' ⊢
        omega
      · intro i hi
        have hne : q.frontOffset + 1 + i ≠ q.frontOffset := by omega
        rw [show (⟨mapDelete q.queue q.frontOffset, q.frontOffset + 1,
              q.rearOffset⟩ : Queue T).queue = mapDelete q.queue q.frontOffset from rfl]
        rw [mapGet_mapDelete_ne _ _ _ hne]
        have := hget (i + 1) (by simpa using Nat.succ_lt_succ hi)
        rw [show q.frontOffset + 1 + i = q.frontOffset + (i + 1) by omega] at *
        simpa using this

theorem represents_dequeueBatch {T : Type} {q : Queue T} {items : List T}
    (h : Represents q items) (n : Nat) :
    (q.dequeueBatch n).1 = items.take n ∧ Represents (q.dequeueBatch n).2 (items.drop n) := by
  induction n generalizing q items with
  | zero => exact ⟨rfl, h⟩
  | succ n ih =>
    cases items with
    | nil =>
      have hd := represents_dequeue_nil h
      unfold dequeueBatch
      rw [hd]
      exact ⟨rfl, h⟩
    | cons x rest =>
      obtain ⟨q1, hd, h1⟩ := represents_dequeue_cons h
      have := ih h1
      unfold dequeueBatch
      rw [hd]
      simp only [List.take_succ_cons, List.drop_succ_cons]
      exact ⟨by rw [this.1], this.2⟩

theorem represents_peekBatchAux {T : Type} {q : Queue T} {items : List T}
    (h : Represents q items) (j c : Nat) (hjc : j + c ≤ items.length) :
    q.peekBatchAux (q.frontOffset + j) c = (items.drop j).take c := by
  induction c generalizing j with
  | zero => simp [peekBatchAux]
  | succ c ih =>
    have hj : j < items.length := by omega
    have hsome : items[j]? = some items[j] := List.getElem?_eq_getElem hj
    have hq : mapGet q.queue (q.frontOffset + j) = some items[j] := by
      rw [h.2.2.1 j hj, hsome]
    unfold peekBatchAux
    rw [hq]
    have hdrop : items.drop j = items[j] :: items.drop (j + 1) :=
      List.drop_eq_getElem_cons hj
    rw [hdrop, List.take_succ_cons]
    have := ih (j + 1) (by omega)
    rw [show q.frontOffset + j + 1 = q.frontOffset + (j + 1) by omega]
    rw [this]

theorem represents_peekBatch {T : Type} {q : Queue T} {items : List T}
    (h : Represents q items) (n : Nat) :
    q.peekBatch n = items.take n := by
  unfold peekBatch
  rw [h.size_eq]
  have h0 := represents_peekBatchAux h 0 (min n items.length) (by omega)
  rw [show q.frontOffset + 0 = q.frontOffset by omega] at h0
  rw [h0, List.drop_zero]
  rcases Nat.le_total n items.length with hle | hle
  · rw [Nat.min_eq_left hle]
  · rw [Nat.min_eq_right hle, List.take_of_length_le hle,
      List.take_of_length_le (Nat.le_refl _)]

/-- Enqueue a whole list (used to model WAL replay at recovery). -/
def enqueueAll {T : Type} (q : Queue T) (ms : List T) : Queue T :=
  ms.foldl enqueue q

theorem represents_enqueueAll {T : Type} {q : Queue T} {items : List T}
    (h : Represents q items) (ms : List T) :
    Represents (q.enqueueAll ms) (items ++ ms) := by
  induction ms generalizing q items with
  | nil => simpa using h
  | cons m rest ih =>
    have h1 := represents_enqueue h m
    have := ih h1
    simpa [enqueueAll, List.foldl_cons] using this

end Queue

/-! ## Delimited records

WAL records are `|`-joined fields terminated by a newline.  JS
`String.split` with a one-character separator and `Array.join` are embedded
over `List Char`. -/

/-- JS `str.split(sep)` for a one-character separator, over `List Char`:
each separator occurrence ends the current field and starts a new one. -/
def splitChar (c : Char) (l : List Char) : List (List Char) :=
  l.foldr (fun x acc => if x = c then [] :: acc else (x :: acc.headI) :: acc.tail) [[]]

theorem splitChar_nil (c : Char) : splitChar c [] = [[]] := rfl

theorem splitChar_cons (c x : Char) (xs : List Char) :
    splitChar c (x :: xs) =
      if x = c then [] :: splitChar c xs
      else (x :: (splitChar c xs).headI) :: (splitChar c xs).tail := rfl

/-- JS `str.split(sep)` on strings (one-character separator). -/
def jsSplit (c : Char) (s : String) : List String :=
  (splitChar c s.data).map (fun l => ⟨l⟩)

/-- JS `arr.join(sep)` on strings (one-character separator). -/
def jsJoin (c : Char) (parts : List String) : String :=
  ⟨List.intercalate [c] (parts.map String.data)⟩

theorem splitChar_ne_nil (c : Char) (l : List Char) : splitChar c l ≠ [] := by
  cases l with
  | nil => simp [splitChar_nil]
  | cons x xs =>
    rw [splitChar_cons]
    by_cases hx : x = c
    · simp [hx]
    · simp [hx]

theorem splitChar_of_not_mem {c : Char} {l : List Char} (h : c ∉ l) :
    splitChar c l = [l] := by
  induction l with
  | nil => rfl
  | cons x xs ih =>
    simp only [List.mem_cons, not_or] at h
    rw [splitChar_cons, if_neg (fun hc => h.1 hc.symm), ih h.2]
    rfl

theorem splitChar_append {c : Char} {p : List Char} (rest : List Char) (h : c ∉ p) :
    splitChar c (p ++ c :: rest) = p :: splitChar c rest := by
  induction p with
  | nil =>
    rw [List.nil_append, splitChar_cons, if_pos rfl]
  | cons x xs ih =>
    simp only [List.mem_cons, not_or] at h
    rw [List.cons_append, splitChar_cons, if_neg (fun hc => h.1 hc.symm), ih h.2]
    rfl

theorem intercalate_pair {c : Char} (p q : List Char) (qs : List (List Char)) :
    List.intercalate [c] (p :: q :: qs) = p ++ c :: List.intercalate [c] (q :: qs) := by
  simp [List.intercalate, List.intersperse]

theorem splitChar_intercalate {c : Char} {parts : List (List Char)}
    (hne : parts ≠ []) (h : ∀ p ∈ parts, c ∉ p) :
    splitChar c (List.intercalate [c] parts) = parts := by
  induction parts with
  | nil => exact absurd rfl hne
  | cons p rest ih =>
    cases rest with
    | nil =>
      have hp : List.intercalate [c] [p] = p := by
        simp [List.intercalate, List.intersperse]
      rw [hp]
      exact splitChar_of_not_mem (h p (List.mem_cons_self p []))
    | cons p2 rest2 =>
      rw [intercalate_pair, splitChar_append _ (h p (List.mem_cons_self p _))]
      rw [ih (by simp) (fun q hq => h q (List.mem_cons_of_mem p hq))]

/-- Decimal digit character (JS number-to-string, used for offsets in WAL
records and in template strings). -/
def decDigit (n : Nat) : Char := "0123456789".data.getD n '0'

/-- Fuel-driven decimal rendering helper. -/
def natDecimalAux : Nat → Nat → List Char → List Char
  | 0, n, acc => decDigit (n % 10) :: acc
  | fuel + 1, n, acc =>
    if n < 10 then decDigit n :: acc
    else natDecimalAux fuel (n / 10) (decDigit (n % 10) :: acc)

/-- Decimal rendering of a natural number (JS `${n}` for a non-negative
integer). -/
def natToString (n : Nat) : String := ⟨natDecimalAux n n []⟩

theorem decDigit_mem (n : Nat) : decDigit n ∈ "0123456789".data := by
  unfold decDigit
  by_cases h : n < "0123456789".data.length
  · rw [List.getD_eq_getElem _ _ h]
    exact List.getElem_mem h
  · rw [List.getD_eq_default _ _ (Nat.le_of_not_lt h)]
    decide

theorem natDecimalAux_mem {fuel n : Nat} {acc : List Char} {ch : Char}
    (h : ch ∈ natDecimalAux fuel n acc) :
    ch ∈ "0123456789".data ∨ ch ∈ acc := by
  induction fuel generalizing n acc with
  | zero =>
    unfold natDecimalAux at h
    rcases List.mem_cons.mp h with rfl | h2
    · exact Or.inl (decDigit_mem _)
    · exact Or.inr h2
  | succ fuel ih =>
    unfold natDecimalAux at h
    by_cases hn : n < 10
    · rw [if_pos hn] at h
      rcases List.mem_cons.mp h with rfl | h2
      · exact Or.inl (decDigit_mem _)
      · exact Or.inr h2
    · rw [if_neg hn] at h
      rcases ih h with h1 | h2
      · exact Or.inl h1
      · rcases List.mem_cons.mp h2 with rfl | h3
        · exact Or.inl (decDigit_mem _)
        · exact Or.inr h3

theorem natToString_mem {n : Nat} {ch : Char} (h : ch ∈ (natToString n).data) :
    ch ∈ "0123456789".data := by
  unfold natToString at h
  rcases natDecimalAux_mem h with h1 | h2
  · exact h1
  · simp at h2

theorem pipe_not_mem_natToString (n : Nat) : '|' ∉ (natToString n).data := by
  intro h
  have := natToString_mem h
  revert this
  decide

theorem newline_not_mem_natToString (n : Nat) : '\n' ∉ (natToString n).data := by
  intro h
  have := natToString_mem h
  revert this
  decide

theorem jsSplit_jsJoin {c : Char} {parts : List String} (hne : parts ≠ [])
    (h : ∀ p ∈ parts, c ∉ p.data) : jsSplit c (jsJoin c parts) = parts := by
  unfold jsSplit jsJoin
  rw [splitChar_intercalate (by simpa using hne)
    (by
      intro p hp
      obtain ⟨s, hs, rfl⟩ := List.mem_map.mp hp
      exact h s hs)]
  rw [List.map_map]
  conv_rhs => rw [← List.map_id parts]
  apply List.map_congr_left
  intro s _
  rfl

/-- An append-only log file: the concatenation of its newline-terminated
lines. -/
def walOfLines (lines : List String) : String :=
  ⟨(lines.map (fun s => s.data ++ ['\n'])).flatten⟩

theorem jsSplit_walOfLines {lines : List String}
    (h : ∀ l ∈ lines, '\n' ∉ l.data) :
    jsSplit '\n' (walOfLines lines) = lines ++ [""] := by
  induction lines with
  | nil => rfl
  | cons l rest ih =>
    unfold jsSplit walOfLines
    have hdata : ((l :: rest).map (fun s => s.data ++ ['\n'])).flatten =
        l.data ++ '\n' :: ((rest.map (fun s => s.data ++ ['\n'])).flatten) := by
      simp [List.flatten]
    rw [hdata, splitChar_append _ (h l (List.mem_cons_self l rest))]
    rw [List.map_cons]
    have := ih (fun x hx => h x (List.mem_cons_of_mem l hx))
    unfold jsSplit walOfLines at this
    rw [this]
    rfl

/-! ## Partition (`partition.ts`)

State: in-memory queue, `logEndOffset`, `readOffset`, plus the on-disk WAL
(its list of appended record lines). -/

structure PartitionState where
  buffer : Queue Message
  logEndOffset : Nat
  readOffset : Nat
  wal : List String
deriving DecidableEq, Repr

namespace Partition

/-- `private readonly maxBufferSize: number = 100_000_000`. -/
def maxBufferSize : Nat := 100000000

/-- The `PARTITION_BUFFER` case of `LogFileHandler.formatLogEntry` in
`shared/utils.ts` (the handler version whose constructor takes
`topicId`/`partitionId`, which `partition.ts` links against):
`[this.topicId, this.partitionId, offset, message.messageId, stringifiedMsg].join("|") + "\n"`.
`stringifiedMsg` is `message.content` itself since `Message.content` is
typed `string`; `partitionId` and `offset` render as decimal numbers; the
trailing newline is represented by the record being one WAL line. -/
def formatPartitionRecord (topicId : String) (partitionId : Nat)
    (m : Message) (offset : Nat) : String :=
  jsJoin '|' [topicId, natToString partitionId, natToString offset, m.messageId, m.content]

/-- Record parsing in `buildBufferFromLogFile`:
`const [topicId, partitionId, offset, messageId, content] = log.split("|")`,
then enqueue `{ topicId, messageId, content }`.  Fields missing from the
split (JS `undefined`) are modelled as `""`. -/
def parsePartitionRecord (log : String) : Message :=
  let fields := jsSplit '|' log
  { topicId := fields.getD 0 "", messageId := fields.getD 3 "", content := fields.getD 4 "" }

theorem parse_format {topicId : String} (partitionId : Nat) {m : Message} (offset : Nat)
    (ht : '|' ∉ topicId.data) (hmid : '|' ∉ m.messageId.data)
    (hmc : '|' ∉ m.content.data) (htop : m.topicId = topicId) :
    parsePartitionRecord (formatPartitionRecord topicId partitionId m offset) = m := by
  unfold parsePartitionRecord formatPartitionRecord
  rw [jsSplit_jsJoin (by simp)]
  · simp only [List.getD]
    cases m
    simp_all
  · intro p hp
    simp only [List.mem_cons, List.mem_singleton] at hp
    rcases hp with rfl | rfl | rfl | rfl | hp2
    · exact ht
    · exact pipe_not_mem_natToString _
    · exact pipe_not_mem_natToString _
    · exact hmid
    · rcases hp2 with rfl | hp3
      · exact hmc
      · simp at hp3

/-- `partition.ts` `push(message)`: reject when the buffer has reached
`maxBufferSize`; otherwise append `message` to the WAL at offset
`logEndOffset + 1` (`appendOk` is the outcome of the underlying
`fs.appendFile`), and only on append success enqueue the message and
advance `logEndOffset` to `logEndOffset + 1` (`updateLogEndOffset`). -/
def push (appendOk : Bool) (topicId : String) (partitionId : Nat)
    (s : PartitionState) (message : Message) : Response Unit × PartitionState :=
  if maxBufferSize ≤ s.buffer.size then
    (.err .BUFFER_FULL, s)
  else
    let newLogEndOffset := s.logEndOffset + 1
    if appendOk then
      (.ok (),
        { s with
          wal := s.wal ++ [formatPartitionRecord topicId partitionId message newLogEndOffset],
          buffer := s.buffer.enqueue message,
          logEndOffset := newLogEndOffset })
    else
      (.err .LOG_FILE_APPEND_FAILED, s)

/-- `partition.ts` `batchExtract(batchSize)`: error on an empty buffer, else
`peekBatch` (no removal) and report `startOffset = readOffset`,
`endOffset = readOffset + batch.length`.  The method never mutates state. -/
def batchExtract (s : PartitionState) (batchSize : Nat) :
    Response (List Message × Nat × Nat) :=
  if s.buffer.isEmpty then
    .err .BUFFER_EMPTY
  else
    let batch := s.buffer.peekBatch batchSize
    .ok (batch, s.readOffset, s.readOffset + batch.length)

/-- `partition.ts` `commitOffset(offset)`: `INVALID_OFFSET` when
`logEndOffset < offset`; otherwise dequeue `offset − readOffset` messages
when that difference is positive, set `readOffset := offset`
(`updateReadOffset`), and return `{ logEndOffset, newReadOffset }`. -/
def commitOffset (s : PartitionState) (offset : Nat) :
    Response (Nat × Nat) × PartitionState :=
  if s.logEndOffset < offset then
    (.err .INVALID_OFFSET, s)
  else
    let messagesToDequeue : Int := (offset : Int) - (s.readOffset : Int)
    let buffer1 :=
      if 0 < messagesToDequeue then (s.buffer.dequeueBatch messagesToDequeue.toNat).2
      else s.buffer
    let s1 := { s with buffer := buffer1, readOffset := offset }
    (.ok (s1.logEndOffset, s1.readOffset), s1)

/-- `partition.ts` `buildBufferFromLogFile`: read the log file, split on
newlines, `slice(readOffset)`, drop empty lines, parse each record and
enqueue it into the (fresh) buffer. -/
def buildBufferFromLogFile (logFileContent : String) (readOffset : Nat) : Queue Message :=
  let logs := ((jsSplit '\n' logFileContent).drop readOffset).filter (fun l => l != "")
  Queue.enqueueAll (Queue.init Message) (logs.map parsePartitionRecord)

/-- Partition construction over an existing WAL and metadata line
`(logEndOffset, readOffset)`: construction aborts (`process.exit(1)`)
unless `logEndOffset ≥ readOffset`, then replays the WAL from line
`readOffset` into the buffer. -/
def recover (walLines : List String) (logEndOffset readOffset : Nat) : PartitionState :=
  { buffer := buildBufferFromLogFile (walOfLines walLines) readOffset,
    logEndOffset := logEndOffset,
    readOffset := readOffset,
    wal := walLines }

/-- Partition states reachable from a successful construction by the public
operations (`batchExtract` never mutates state, so it needs no step). -/
inductive Reachable (topicId : String) (partitionId : Nat) : PartitionState → Prop where
  | recover (walLines : List String) (logEndOffset readOffset : Nat)
      (hLR : readOffset ≤ logEndOffset) :
      Reachable topicId partitionId (recover walLines logEndOffset readOffset)
  | push (s : PartitionState) (m : Message) (appendOk : Bool)
      (h : Reachable topicId partitionId s) :
      Reachable topicId partitionId (push appendOk topicId partitionId s m).2
  | commit (s : PartitionState) (o : Nat) (h : Reachable topicId partitionId s) :
      Reachable topicId partitionId (commitOffset s o).2

theorem push_state (appendOk : Bool) (topicId : String) (partitionId : Nat)
    (s : PartitionState) (m : Message) :
    (push appendOk topicId partitionId s m).2.readOffset = s.readOffset ∧
    s.logEndOffset ≤ (push appendOk topicId partitionId s m).2.logEndOffset := by
  unfold push
  by_cases hfull : maxBufferSize ≤ s.buffer.size
  · rw [if_pos hfull]
    exact ⟨rfl, Nat.le_refl _⟩
  · rw [if_neg hfull]
    cases appendOk
    · exact ⟨rfl, Nat.le_refl _⟩
    · exact ⟨rfl, Nat.le_succ _⟩

theorem commit_state (s : PartitionState) (o : Nat) :
    (commitOffset s o).2.logEndOffset = s.logEndOffset ∧
    (s.logEndOffset < o → (commitOffset s o).2 = s) ∧
    (o ≤ s.logEndOffset → (commitOffset s o).2.readOffset = o) := by
  unfold commitOffset
  by_cases ho : s.logEndOffset < o
  · rw [if_pos ho]
    exact ⟨rfl, fun _ => rfl, fun hle => absurd ho (Nat.not_lt.mpr hle)⟩
  · rw [if_neg ho]
    exact ⟨rfl, fun hlt => absurd hlt ho, fun _ => rfl⟩

theorem reachable_offset_invariant {topicId : String} {partitionId : Nat}
    {s : PartitionState} (h : Reachable topicId partitionId s) :
    s.readOffset ≤ s.logEndOffset := by
  induction h with
  | recover walLines L R hLR => exact hLR
  | push s m appendOk _ ih =>
    have hp := push_state appendOk topicId partitionId s m
    omega
  | commit s o _ ih =>
    have hc := commit_state s o
    by_cases ho : s.logEndOffset < o
    · rw [hc.2.1 ho]
      exact ih
    · have h1 := hc.2.2 (Nat.le_of_not_lt ho)
      omega

end Partition

/-- C5: on a partition `push` below capacity, the WAL append comes first
and gates everything: a failed append returns the append error with the
whole state (queue, WAL, `logEndOffset`, `readOffset`) unchanged, while a
successful append appends the record at offset `logEndOffset + 1`,
enqueues the message, and advances `logEndOffset` by exactly 1. -/
theorem C5_push_wal_gates_state (appendOk : Bool) (topicId : String)
    (partitionId : Nat) (s : PartitionState) (m : Message)
    (hroom : s.buffer.size < Partition.maxBufferSize) :
    (appendOk = false →
      Partition.push appendOk topicId partitionId s m = (.err .LOG_FILE_APPEND_FAILED, s)) ∧
    (appendOk = true →
      (Partition.push appendOk topicId partitionId s m).1 = .ok () ∧
      (Partition.push appendOk topicId partitionId s m).2.wal =
        s.wal ++ [Partition.formatPartitionRecord topicId partitionId m (s.logEndOffset + 1)] ∧
      (Partition.push appendOk topicId partitionId s m).2.buffer = s.buffer.enqueue m ∧
      (Partition.push appendOk topicId partitionId s m).2.logEndOffset = s.logEndOffset + 1 ∧
      (Partition.push appendOk topicId partitionId s m).2.readOffset = s.readOffset) := by
  unfold Partition.push
  rw [if_neg (Nat.not_le.mpr hroom)]
  cases appendOk
  · exact ⟨fun _ => rfl, fun hcontra => by simp at hcontra⟩
  · exact ⟨fun hcontra => by simp at hcontra, fun _ => ⟨rfl, rfl, rfl, rfl, rfl⟩⟩

/-- Witness for C5 at a concrete partition state and message. -/
theorem C5_push_wal_gates_state_witness :
    (⟨Queue.init Message, 0, 0, []⟩ : PartitionState).buffer.size < Partition.maxBufferSize ∧
    Partition.push false "t" 0 ⟨Queue.init Message, 0, 0, []⟩ ⟨"t", "m1", "hello"⟩ =
      (.err .LOG_FILE_APPEND_FAILED, ⟨Queue.init Message, 0, 0, []⟩) :=
  ⟨by decide,
    (C5_push_wal_gates_state false "t" 0 ⟨Queue.init Message, 0, 0, []⟩
      ⟨"t", "m1", "hello"⟩ (by decide)).1 rfl⟩

/-- C1: `commitOffset(o)` errors with `INVALID_OFFSET` exactly when
`o > logEndOffset`, leaving the state untouched on that error; for
`o ≤ logEndOffset` it succeeds with `{ logEndOffset, newReadOffset = o }`,
sets `readOffset := o`, and dequeues `k = o − readOffset` messages from the
in-memory queue when `k > 0` (no dequeue when `k ≤ 0`), so a buffer holding
`items` afterwards holds `items.drop (o − readOffset)`. -/
theorem C1_commitOffset_contract (s : PartitionState) (o : Nat) :
    ((Partition.commitOffset s o).1 = .err .INVALID_OFFSET ↔ s.logEndOffset < o) ∧
    (s.logEndOffset < o → (Partition.commitOffset s o).2 = s) ∧
    (o ≤ s.logEndOffset →
      (Partition.commitOffset s o).1 = .ok (s.logEndOffset, o) ∧
      (Partition.commitOffset s o).2.readOffset = o ∧
      (Partition.commitOffset s o).2.logEndOffset = s.logEndOffset ∧
      (Partition.commitOffset s o).2.wal = s.wal ∧
      (Partition.commitOffset s o).2.buffer =
        (if s.readOffset < o then (s.buffer.dequeueBatch (o - s.readOffset)).2
         else s.buffer) ∧
      (∀ items : List Message, s.buffer.Represents items →
        (Partition.commitOffset s o).2.buffer.Represents (items.drop (o - s.readOffset)))) := by
  unfold Partition.commitOffset
  by_cases ho : s.logEndOffset < o
  · rw [if_pos ho]
    refine ⟨⟨fun _ => ho, fun _ => rfl⟩, fun _ => rfl, fun hle => absurd ho (Nat.not_lt.mpr hle)⟩
  · rw [if_neg ho]
    dsimp only
    refine ⟨⟨fun hcontra => by simp at hcontra, fun hlt => absurd hlt ho⟩,
      fun hlt => absurd hlt ho, fun _ => ⟨rfl, rfl, rfl, rfl, ?_, ?_⟩⟩
    · by_cases hro : s.readOffset < o
      · rw [if_pos hro, if_pos (by omega : (0 : Int) < (o : Int) - (s.readOffset : Int))]
        have htn : ((o : Int) - (s.readOffset : Int)).toNat = o - s.readOffset := by omega
        rw [htn]
      · rw [if_neg hro, if_neg (by omega : ¬ (0 : Int) < (o : Int) - (s.readOffset : Int))]
    · intro items hrep
      by_cases hro : s.readOffset < o
      · rw [if_pos (by omega : (0 : Int) < (o : Int) - (s.readOffset : Int))]
        have htn : ((o : Int) - (s.readOffset : Int)).toNat = o - s.readOffset := by omega
        rw [htn]
        exact (Queue.represents_dequeueBatch hrep (o - s.readOffset)).2
      · rw [if_neg (by omega : ¬ (0 : Int) < (o : Int) - (s.readOffset : Int))]
        have hzero : o - s.readOffset = 0 := by omega
        rw [hzero, List.drop_zero]
        exact hrep

/-- Counterexample to C4 as stated: from a freshly recovered partition,
push one message and commit offset 1 (state `(L, R) = (1, 1)`), then
`commitOffset 0` — the commit succeeds even though `0 < readOffset`, and
`readOffset` moves backwards from 1 to 0 (`commitOffset` only validates
`offset ≤ logEndOffset`, never `offset ≥ readOffset`). -/
theorem C4_commit_can_move_readOffset_backwards :
    (Partition.commitOffset
        (Partition.commitOffset
          (Partition.push true "t" 0 (Partition.recover [] 0 0) ⟨"t", "m1", "c"⟩).2 1).2
        0).1 = .ok (1, 0) ∧
    (Partition.commitOffset
        (Partition.push true "t" 0 (Partition.recover [] 0 0) ⟨"t", "m1", "c"⟩).2 1).2.readOffset = 1 ∧
    (Partition.commitOffset
        (Partition.commitOffset
          (Partition.push true "t" 0 (Partition.recover [] 0 0) ⟨"t", "m1", "c"⟩).2 1).2
        0).2.readOffset = 0 := by
  decide

/-- C4 amended: `logEndOffset` is monotonically non-decreasing (push can
only raise it, commit never changes it) and push never touches
`readOffset`; a commit succeeds exactly when `o ≤ logEndOffset` and then
sets `readOffset := o` — for ANY such `o`, including `o < readOffset` —
so `readOffset` is non-decreasing only across commits with
`o ≥ readOffset`. -/
theorem C4_amended_offset_monotonicity (appendOk : Bool) (topicId : String)
    (partitionId : Nat) (s : PartitionState) (m : Message) (o : Nat) :
    (s.logEndOffset ≤ (Partition.push appendOk topicId partitionId s m).2.logEndOffset) ∧
    ((Partition.push appendOk topicId partitionId s m).2.readOffset = s.readOffset) ∧
    ((Partition.commitOffset s o).2.logEndOffset = s.logEndOffset) ∧
    ((Partition.commitOffset s o).1.isOk = true ↔ o ≤ s.logEndOffset) ∧
    ((Partition.commitOffset s o).1.isOk = true →
      (Partition.commitOffset s o).2.readOffset = o) ∧
    (s.readOffset ≤ o → s.readOffset ≤ (Partition.commitOffset s o).2.readOffset) := by
  have hp := Partition.push_state appendOk topicId partitionId s m
  have hc := Partition.commit_state s o
  have hres : (Partition.commitOffset s o).1.isOk = true ↔ o ≤ s.logEndOffset := by
    unfold Partition.commitOffset
    by_cases ho : s.logEndOffset < o
    · rw [if_pos ho]
      simp [Response.isOk]
      omega
    · rw [if_neg ho]
      simp [Response.isOk]
      omega
  refine ⟨hp.2, hp.1, hc.1, hres, ?_, ?_⟩
  · intro hok
    exact hc.2.2 (hres.mp hok)
  · intro hro
    by_cases ho : s.logEndOffset < o
    · rw [hc.2.1 ho]
    · rw [hc.2.2 (Nat.le_of_not_lt ho)]
      exact hro

/-- Witness for the amended C4 at a concrete state: a successful
`commit 1` on a one-message partition lands `readOffset` on 1. -/
theorem C4_amended_offset_monotonicity_witness :
    (Partition.commitOffset
        (⟨⟨[(0, ⟨"t", "a", "x"⟩)], 0, 1⟩, 1, 0, []⟩ : PartitionState) 1).2.readOffset = 1 ∧
    (0 : Nat) ≤ 1 :=
  ⟨(C4_amended_offset_monotonicity true "t" 0
      ⟨⟨[(0, ⟨"t", "a", "x"⟩)], 0, 1⟩, 1, 0, []⟩ ⟨"t", "a", "x"⟩ 1).2.2.2.2.1 (by decide),
    by decide⟩

/-- C8: `peekBatch n` on a queue holding `items` returns the first
`min n size` items in FIFO order (`items.take n`), and it is idempotent
with respect to queue state: the call leaves the queue (map contents and
front/rear counters) unchanged, and an immediately repeated call returns
the same items with the state still unchanged. -/
theorem C8_peekBatch_fifo_idempotent {T : Type} (q : Queue T) (items : List T)
    (n : Nat) (h : q.Represents items) :
    q.peekBatch n = items.take n ∧
    (q.peekBatchCall n).2 = q ∧
    ((q.peekBatchCall n).2.peekBatchCall n).1 = (q.peekBatchCall n).1 ∧
    ((q.peekBatchCall n).2.peekBatchCall n).2 = q :=
  ⟨Queue.represents_peekBatch h n, rfl, rfl, rfl⟩

/-- Witness for C8 at a concrete two-item queue. -/
theorem C8_peekBatch_fifo_idempotent_witness :
    (⟨[(0, ⟨"t", "a", "x"⟩), (1, ⟨"t", "b", "y"⟩)], 0, 2⟩ : Queue Message).peekBatch 1 =
      [⟨"t", "a", "x"⟩] ∧
    ((⟨[(0, ⟨"t", "a", "x"⟩), (1, ⟨"t", "b", "y"⟩)], 0, 2⟩ : Queue Message).peekBatchCall 1).2 =
      ⟨[(0, ⟨"t", "a", "x"⟩), (1, ⟨"t", "b", "y"⟩)], 0, 2⟩ ∧
    (((⟨[(0, ⟨"t", "a", "x"⟩), (1, ⟨"t", "b", "y"⟩)], 0, 2⟩ : Queue Message).peekBatchCall 1).2.peekBatchCall 1).1 =
      ((⟨[(0, ⟨"t", "a", "x"⟩), (1, ⟨"t", "b", "y"⟩)], 0, 2⟩ : Queue Message).peekBatchCall 1).1 ∧
    (((⟨[(0, ⟨"t", "a", "x"⟩), (1, ⟨"t", "b", "y"⟩)], 0, 2⟩ : Queue Message).peekBatchCall 1).2.peekBatchCall 1).2 =
      ⟨[(0, ⟨"t", "a", "x"⟩), (1, ⟨"t", "b", "y"⟩)], 0, 2⟩ :=
  C8_peekBatch_fifo_idempotent _ ([⟨"t", "a", "x"⟩, ⟨"t", "b", "y"⟩] : List Message) 1
    (by decide)

theorem mem_intercalate_char {c ch : Char} {parts : List (List Char)}
    (h : ch ∈ List.intercalate [c] parts) :
    ch = c ∨ ∃ p ∈ parts, ch ∈ p := by
  induction parts with
  | nil => simp [List.intercalate] at h
  | cons p rest ih =>
    cases rest with
    | nil =>
      have hp : List.intercalate [c] [p] = p := by
        simp [List.intercalate, List.intersperse]
      rw [hp] at h
      exact Or.inr ⟨p, List.mem_cons_self p [], h⟩
    | cons p2 rest2 =>
      rw [intercalate_pair] at h
      rcases List.mem_append.mp h with h1 | h1
      · exact Or.inr ⟨p, List.mem_cons_self p _, h1⟩
      · rcases List.mem_cons.mp h1 with rfl | h2
        · exact Or.inl rfl
        · rcases ih h2 with h3 | ⟨q, hq, hqm⟩
          · exact Or.inl h3
          · exact Or.inr ⟨q, List.mem_cons_of_mem p hq, hqm⟩

theorem mem_jsJoin {c ch : Char} {parts : List String}
    (h : ch ∈ (jsJoin c parts).data) :
    ch = c ∨ ∃ p ∈ parts, ch ∈ p.data := by
  unfold jsJoin at h
  rcases mem_intercalate_char h with h1 | ⟨p, hp, hpm⟩
  · exact Or.inl h1
  · obtain ⟨s, hs, rfl⟩ := List.mem_map.mp hp
    exact Or.inr ⟨s, hs, hpm⟩

namespace Partition

theorem newline_not_mem_format {topicId : String} (partitionId : Nat)
    {m : Message} (offset : Nat) (ht : '\n' ∉ topicId.data)
    (hmid : '\n' ∉ m.messageId.data) (hmc : '\n' ∉ m.content.data) :
    '\n' ∉ (formatPartitionRecord topicId partitionId m offset).data := by
  intro h
  unfold formatPartitionRecord at h
  rcases mem_jsJoin h with h1 | ⟨p, hp, hpm⟩
  · exact absurd h1 (by decide)
  · simp only [List.mem_cons, List.mem_singleton] at hp
    rcases hp with rfl | rfl | rfl | rfl | hp2
    · exact ht hpm
    · exact newline_not_mem_natToString _ hpm
    · exact newline_not_mem_natToString _ hpm
    · exact hmid hpm
    · rcases hp2 with rfl | hp3
      · exact hmc hpm
      · simp at hp3

theorem format_ne_empty (topicId : String) (partitionId : Nat)
    (m : Message) (offset : Nat) :
    formatPartitionRecord topicId partitionId m offset ≠ "" := by
  intro hEq
  have hd := congrArg String.data hEq
  unfold formatPartitionRecord jsJoin at hd
  dsimp only at hd
  simp only [List.map_cons] at hd
  rw [intercalate_pair] at hd
  simp at hd

theorem map_parse_zipWith_format {topicId : String} (partitionId : Nat)
    {ms : List Message} {offs : List Nat} (hlen : ms.length ≤ offs.length)
    (ht : '|' ∉ topicId.data)
    (hf : ∀ m ∈ ms, m.topicId = topicId ∧ '|' ∉ m.messageId.data ∧ '|' ∉ m.content.data) :
    (List.zipWith (fun m o => formatPartitionRecord topicId partitionId m o) ms offs).map
      parsePartitionRecord = ms := by
  induction ms generalizing offs with
  | nil => simp
  | cons m rest ih =>
    cases offs with
    | nil => simp at hlen
    | cons o orest =>
      rw [List.zipWith_cons_cons, List.map_cons]
      have hm := hf m (List.mem_cons_self m rest)
      rw [parse_format partitionId o ht hm.2.1 hm.2.2 hm.1]
      rw [ih (by simpa using Nat.le_of_succ_le_succ hlen)
        (fun x hx => hf x (List.mem_cons_of_mem m hx))]

end Partition

/-- C6: recovering a partition over a WAL of `L = ms.length` records — the
record at line `i` holding message `ms[i]` at offset `i + 1` — with
metadata `(L, R)`, `R ≤ L`, replays into the in-memory queue exactly the
uncommitted suffix `ms.drop R` (the messages at offsets `R+1 … L`) in WAL
order, so the rebuilt buffer holds `L − R` messages.  Field hypotheses rule
out the delimiter collisions the spec itself flags as unescaped. -/
theorem C6_recovery_rebuilds_uncommitted_suffix (topicId : String) (partitionId : Nat)
    (ms : List Message) (walLines : List String) (R : Nat)
    (hwal : walLines = List.zipWith
      (fun m o => Partition.formatPartitionRecord topicId partitionId m o)
      ms (List.range' 1 ms.length))
    (hR : R ≤ ms.length)
    (ht : '|' ∉ topicId.data ∧ '\n' ∉ topicId.data)
    (hf : ∀ m ∈ ms, m.topicId = topicId ∧
      '|' ∉ m.messageId.data ∧ '|' ∉ m.content.data ∧
      '\n' ∉ m.messageId.data ∧ '\n' ∉ m.content.data) :
    (Partition.recover walLines ms.length R).buffer.Represents (ms.drop R) ∧
    (Partition.recover walLines ms.length R).buffer.size = ms.length - R := by
  have hlen : walLines.length = ms.length := by
    rw [hwal, List.length_zipWith, List.length_range']
    exact Nat.min_self _
  have hmem : ∀ l ∈ walLines, ∃ m ∈ ms, ∃ o : Nat,
      l = Partition.formatPartitionRecord topicId partitionId m o := by
    rw [hwal]
    clear hwal hlen hR
    generalize List.range' 1 ms.length = offs
    induction ms generalizing offs with
    | nil => simp
    | cons m rest ih =>
      cases offs with
      | nil => simp
      | cons o orest =>
        rw [List.zipWith_cons_cons]
        intro l hl
        rcases List.mem_cons.mp hl with rfl | hl2
        · exact ⟨m, List.mem_cons_self m rest, o, rfl⟩
        · obtain ⟨m2, hm2, o2, rfl⟩ :=
            ih (fun x hx => hf x (List.mem_cons_of_mem m hx)) orest l hl2
          exact ⟨m2, List.mem_cons_of_mem m hm2, o2, rfl⟩
  have hnl : ∀ l ∈ walLines, '\n' ∉ l.data := by
    intro l hl
    obtain ⟨m, hm, o, rfl⟩ := hmem l hl
    have := hf m hm
    exact Partition.newline_not_mem_format partitionId o ht.2 this.2.2.2.1 this.2.2.2.2
  have hsplit : jsSplit '\n' (walOfLines walLines) = walLines ++ [""] :=
    jsSplit_walOfLines hnl
  have hne : ∀ l ∈ walLines, (l != "") = true := by
    intro l hl
    obtain ⟨m, hm, o, rfl⟩ := hmem l hl
    simpa using Partition.format_ne_empty topicId partitionId m o
  have hlogs : ((jsSplit '\n' (walOfLines walLines)).drop R).filter (fun l => l != "") =
      walLines.drop R := by
    rw [hsplit, List.drop_append_of_le_length (by omega), List.filter_append]
    have h1 : (walLines.drop R).filter (fun l => l != "") = walLines.drop R :=
      List.filter_eq_self.mpr (fun a ha => hne a (List.mem_of_mem_drop ha))
    rw [h1]
    simp
  have hparse : (walLines.drop R).map Partition.parsePartitionRecord = ms.drop R := by
    rw [List.map_drop]
    rw [hwal, Partition.map_parse_zipWith_format partitionId
      (by rw [List.length_range']) ht.1
      (fun m hm => ⟨(hf m hm).1, (hf m hm).2.1, (hf m hm).2.2.1⟩)]
  have hbuf : (Partition.recover walLines ms.length R).buffer =
      Queue.enqueueAll (Queue.init Message) (ms.drop R) := by
    show Partition.buildBufferFromLogFile (walOfLines walLines) R = _
    unfold Partition.buildBufferFromLogFile
    dsimp only
    rw [hlogs, hparse]
  have hrep : (Partition.recover walLines ms.length R).buffer.Represents (ms.drop R) := by
    rw [hbuf]
    simpa using Queue.represents_enqueueAll (Queue.represents_init Message) (ms.drop R)
  refine ⟨hrep, ?_⟩
  rw [hrep.size_eq, List.length_drop]

/-- Witness for C6: a two-message WAL recovered at `readOffset = 1` holds
exactly the second message. -/
theorem C6_recovery_rebuilds_uncommitted_suffix_witness :
    (Partition.recover
        (List.zipWith
          (fun m o => Partition.formatPartitionRecord "t" 0 m o)
          [⟨"t", "m1", "a"⟩, ⟨"t", "m2", "b"⟩]
          (List.range' 1 2))
        2 1).buffer.Represents [⟨"t", "m2", "b"⟩] :=
  (C6_recovery_rebuilds_uncommitted_suffix "t" 0
    [⟨"t", "m1", "a"⟩, ⟨"t", "m2", "b"⟩] _ 1 rfl (by decide) (by decide) (by decide)).1

/-- Witness for C1 at a concrete two-message partition state: `commit 1`
succeeds and dequeues one message, `commit 3` is rejected. -/
theorem C1_commitOffset_contract_witness :
    (Partition.commitOffset
        ⟨⟨[(0, ⟨"t", "a", "x"⟩), (1, ⟨"t", "b", "y"⟩)], 0, 2⟩, 2, 0, []⟩ 1).1 =
      .ok (2, 1) ∧
    (Partition.commitOffset
        ⟨⟨[(0, ⟨"t", "a", "x"⟩), (1, ⟨"t", "b", "y"⟩)], 0, 2⟩, 2, 0, []⟩ 3).1 =
      .err .INVALID_OFFSET := by
  have h1 := C1_commitOffset_contract
    ⟨⟨[(0, ⟨"t", "a", "x"⟩), (1, ⟨"t", "b", "y"⟩)], 0, 2⟩, 2, 0, []⟩ 1
  have h3 := C1_commitOffset_contract
    ⟨⟨[(0, ⟨"t", "a", "x"⟩), (1, ⟨"t", "b", "y"⟩)], 0, 2⟩, 2, 0, []⟩ 3
  exact ⟨(h1.2.2 (by decide)).1, h3.1.mpr (by decide)⟩

/-! ## Ingress buffer (`ingress-buffer.ts`, batched-flush version)

State: in-memory queue, `logEndOffset`, `readOffset`, the `pendingWrites`
staging list (message, staged offset), the single-shot flush-timer flag,
and the on-disk WAL lines. -/

structure IngressState where
  buffer : Queue Message
  logEndOffset : Nat
  readOffset : Nat
  pendingWrites : List (Message × Nat)
  flushTimer : Bool
  wal : List String
deriving DecidableEq, Repr

namespace Ingress

/-- `private maxLength: number = 200_000_000`. -/
def maxLength : Nat := 200000000

/-- `private static readonly BATCH_SIZE: number = 1000`. -/
def BATCH_SIZE : Nat := 1000

/-- The inline record format of `flushPendingWrites`:
`[BROKER_ID, entry.offset, topicId, messageId, content].join('|')`. -/
def formatIngressRecord (brokerId : String) (offset : Nat) (m : Message) : String :=
  jsJoin '|' [brokerId, natToString offset, m.topicId, m.messageId, m.content]

/-- `flushPendingWrites()`: a no-op when nothing is staged (or a flush is
already running — the sequential embedding has `isFlushing = false` between
operations).  Otherwise clear the timer, grab and clear the staging list,
and perform one WAL append of the whole batch (`appendOk` is the
`fsPromises.appendFile` outcome): on success `logEndOffset` becomes the last
staged offset; on failure the batch is lost and the error is returned. -/
def flushPendingWrites (appendOk : Bool) (brokerId : String) (s : IngressState) :
    Response Bool × IngressState :=
  if s.pendingWrites = [] then (.ok true, s)
  else
    let batch := s.pendingWrites
    if appendOk then
      let finalOffset := (batch.getLast?.map Prod.snd).getD 0
      (.ok true,
        { s with
          flushTimer := false,
          pendingWrites := [],
          wal := s.wal ++ batch.map (fun e => formatIngressRecord brokerId e.2 e.1),
          logEndOffset := finalOffset })
    else
      (.err .LOG_FILE_APPEND_FAILED, { s with flushTimer := false, pendingWrites := [] })

/-- `push(message)`: reject when the in-memory queue has reached
`maxLength`; otherwise stage the write at the eagerly assigned offset
`logEndOffset + pendingWrites.length + 1`, enqueue the message into the
in-memory queue immediately, then flush synchronously when the staging
list has reached `BATCH_SIZE` (propagating a flush failure) or ensure the
single-shot flush timer is scheduled. -/
def push (appendOk : Bool) (brokerId : String) (s : IngressState) (message : Message) :
    Response Bool × IngressState :=
  if maxLength ≤ s.buffer.size then
    (.err .BUFFER_FULL, s)
  else
    let newLogEndOffset := s.logEndOffset + s.pendingWrites.length + 1
    let s1 := { s with
      pendingWrites := s.pendingWrites ++ [(message, newLogEndOffset)],
      buffer := s.buffer.enqueue message }
    if BATCH_SIZE ≤ s1.pendingWrites.length then
      let f := flushPendingWrites appendOk brokerId s1
      match f.1 with
      | .ok _ => (.ok true, f.2)
      | .err e => (.err e, f.2)
    else
      (.ok true, { s1 with flushTimer := true })

/-- `batchExtract(batchSize)`: error on an empty buffer; otherwise dequeue
`min(batchSize, size)` messages and advance `readOffset` by that count
(`updateReadOffset(readOffset + n)`). -/
def batchExtract (s : IngressState) (batchSize : Nat) :
    Response (List Message) × IngressState :=
  if s.buffer.isEmpty then
    (.err .BUFFER_EMPTY, s)
  else
    let n := min batchSize s.buffer.size
    let r := s.buffer.dequeueBatch n
    (.ok r.1, { s with buffer := r.2, readOffset := s.readOffset + n })

/-- Record parsing in the ingress `buildBufferFromLogFile`:
`const [brokerId, offset, topicId, messageId, content] = log.split("|")`,
then enqueue `{ topicId, messageId, content }`. -/
def parseIngressRecord (log : String) : Message :=
  let fields := jsSplit '|' log
  { topicId := fields.getD 2 "", messageId := fields.getD 3 "", content := fields.getD 4 "" }

/-- Ingress `buildBufferFromLogFile`: split the WAL on newlines,
`slice(readOffset)`, drop empty lines, parse and enqueue each record. -/
def buildBufferFromLogFile (logFileContent : String) (readOffset : Nat) : Queue Message :=
  let logs := ((jsSplit '\n' logFileContent).drop readOffset).filter (fun l => l != "")
  Queue.enqueueAll (Queue.init Message) (logs.map parseIngressRecord)

/-- Ingress construction (recovery): abort unless `logEndOffset ≥
readOffset`, replay the WAL from line `readOffset`; no writes are staged
and no timer is armed. -/
def recover (walLines : List String) (logEndOffset readOffset : Nat) : IngressState :=
  { buffer := buildBufferFromLogFile (walOfLines walLines) readOffset,
    logEndOffset := logEndOffset,
    readOffset := readOffset,
    pendingWrites := [],
    flushTimer := false,
    wal := walLines }

/-- Ingress states reachable from a successful construction over a
well-formed WAL (one non-empty newline-free line per record), by pushes,
timer-driven flushes, and broker drains, in traces where every WAL append
succeeds. -/
inductive Reachable (brokerId : String) : IngressState → Prop where
  | recover (walLines : List String) (logEndOffset readOffset : Nat)
      (hLR : readOffset ≤ logEndOffset)
      (hlen : walLines.length = logEndOffset)
      (hlines : ∀ l ∈ walLines, l ≠ "" ∧ '\n' ∉ l.data) :
      Reachable brokerId (recover walLines logEndOffset readOffset)
  | push (s : IngressState) (m : Message) (h : Reachable brokerId s) :
      Reachable brokerId (push true brokerId s m).2
  | flushTick (s : IngressState) (h : Reachable brokerId s) :
      Reachable brokerId (flushPendingWrites true brokerId s).2
  | extract (s : IngressState) (n : Nat) (h : Reachable brokerId s) :
      Reachable brokerId (batchExtract s n).2

/-- The inductive invariant of reachable ingress states: the queue holds
exactly the accepted-but-undrained messages (`logEndOffset +
|pendingWrites| − readOffset` of them), `readOffset` never exceeds
`logEndOffset + |pendingWrites|`, and the last staged offset (if any) is
`logEndOffset + |pendingWrites|`. -/
def Inv (s : IngressState) : Prop :=
  ∃ items : List Message,
    s.buffer.Represents items ∧
    items.length + s.readOffset = s.logEndOffset + s.pendingWrites.length ∧
    s.readOffset ≤ s.logEndOffset + s.pendingWrites.length ∧
    (∀ e : Message × Nat, s.pendingWrites.getLast? = some e →
      e.2 = s.logEndOffset + s.pendingWrites.length)

theorem recover_inv {walLines : List String} {logEndOffset readOffset : Nat}
    (hLR : readOffset ≤ logEndOffset) (hlen : walLines.length = logEndOffset)
    (hlines : ∀ l ∈ walLines, l ≠ "" ∧ '\n' ∉ l.data) :
    Inv (recover walLines logEndOffset readOffset) := by
  have hsplit : jsSplit '\n' (walOfLines walLines) = walLines ++ [""] :=
    jsSplit_walOfLines (fun l hl => (hlines l hl).2)
  have hlogs : ((jsSplit '\n' (walOfLines walLines)).drop readOffset).filter
      (fun l => l != "") = walLines.drop readOffset := by
    rw [hsplit, List.drop_append_of_le_length (by omega), List.filter_append]
    have h1 : (walLines.drop readOffset).filter (fun l => l != "") =
        walLines.drop readOffset :=
      List.filter_eq_self.mpr
        (fun a ha => by simpa using (hlines a (List.mem_of_mem_drop ha)).1)
    rw [h1]
    simp
  refine ⟨(walLines.drop readOffset).map parseIngressRecord, ?_, ?_, ?_, ?_⟩
  · show (buildBufferFromLogFile (walOfLines walLines) readOffset).Represents _
    unfold buildBufferFromLogFile
    dsimp only
    rw [hlogs]
    simpa using Queue.represents_enqueueAll (Queue.represents_init Message) _
  · simp only [List.length_map, List.length_drop, recover, List.length_nil]
    omega
  · show readOffset ≤ logEndOffset + ([] : List (Message × Nat)).length
    simp
    omega
  · intro e he
    simp [recover] at he

theorem push_inv {brokerId : String} {s : IngressState} {m : Message}
    (h : Inv s) : Inv (push true brokerId s m).2 := by
  obtain ⟨items, hrep, hcount, hle, hlast⟩ := h
  unfold push
  by_cases hfull : maxLength ≤ s.buffer.size
  · rw [if_pos hfull]
    exact ⟨items, hrep, hcount, hle, hlast⟩
  · rw [if_neg hfull]
    dsimp only
    by_cases hbs : BATCH_SIZE ≤ (s.pendingWrites ++
        [(m, s.logEndOffset + s.pendingWrites.length + 1)]).length
    · rw [if_pos hbs]
      unfold flushPendingWrites
      rw [if_neg (by simp)]
      dsimp only
      rw [if_pos rfl]
      dsimp only
      refine ⟨items ++ [m], Queue.represents_enqueue hrep m, ?_, ?_, ?_⟩
      · simp only [List.length_append, List.length_singleton, List.length_nil,
          List.getLast?_concat, Option.map_some', Option.getD_some]
        omega
      · simp only [List.length_nil, List.getLast?_concat, Option.map_some', Option.getD_some]
        omega
      · intro e he
        simp at he
    · rw [if_neg hbs]
      refine ⟨items ++ [m], Queue.represents_enqueue hrep m, ?_, ?_, ?_⟩
      · simp only [List.length_append, List.length_singleton]
        omega
      · simp only [List.length_append, List.length_singleton]
        omega
      · intro e he
        simp only [List.getLast?_concat, Option.some_inj] at he
        subst he
        simp only [List.length_append, List.length_singleton]
        omega

theorem flush_inv {brokerId : String} {s : IngressState}
    (h : Inv s) : Inv (flushPendingWrites true brokerId s).2 := by
  obtain ⟨items, hrep, hcount, hle, hlast⟩ := h
  unfold flushPendingWrites
  by_cases hnil : s.pendingWrites = []
  · rw [if_pos hnil]
    exact ⟨items, hrep, hcount, hle, hlast⟩
  · rw [if_neg hnil]
    dsimp only
    rw [if_pos rfl]
    have hsome : ∃ e, s.pendingWrites.getLast? = some e := by
      cases hg : s.pendingWrites.getLast? with
      | none => exact absurd (List.getLast?_eq_none_iff.mp hg) hnil
      | some e => exact ⟨e, rfl⟩
    obtain ⟨e, he⟩ := hsome
    have hfin := hlast e he
    refine ⟨items, hrep, ?_, ?_, ?_⟩
    · simp only [he, Option.map_some', Option.getD_some, List.length_nil]
      omega
    · simp only [he, Option.map_some', Option.getD_some, List.length_nil]
      omega
    · intro e2 he2
      simp at he2

theorem extract_inv {s : IngressState} {n : Nat}
    (h : Inv s) : Inv (batchExtract s n).2 := by
  obtain ⟨items, hrep, hcount, hle, hlast⟩ := h
  unfold batchExtract
  by_cases hemp : s.buffer.isEmpty = true
  · rw [if_pos hemp]
    exact ⟨items, hrep, hcount, hle, hlast⟩
  · rw [if_neg hemp]
    dsimp only
    have hdq := Queue.represents_dequeueBatch hrep (min n s.buffer.size)
    have hsize : s.buffer.size = items.length := hrep.size_eq
    refine ⟨items.drop (min n s.buffer.size), hdq.2, ?_, ?_, hlast⟩
    · simp only [List.length_drop]
      omega
    · show s.readOffset + min n s.buffer.size ≤ s.logEndOffset + s.pendingWrites.length
      omega

theorem reachable_inv {brokerId : String} {s : IngressState}
    (h : Reachable brokerId s) : Inv s := by
  induction h with
  | recover walLines L R hLR hlen hlines => exact recover_inv hLR hlen hlines
  | push s m _ ih => exact push_inv ih
  | flushTick s _ ih => exact flush_inv ih
  | extract s n _ ih => exact extract_inv ih

end Ingress

set_option maxRecDepth 8192 in
/-- Counterexample to C7 as stated: an accepted push (in-memory size 0,
far below the cap) that brings the staging list to `BATCH_SIZE = 1000`
triggers the synchronous flush, and when that flush's WAL append fails the
push returns the flush error — not success. -/
theorem C7_push_returns_flush_error :
    ((⟨Queue.init Message, 0, 0,
        (List.range 999).map (fun i => ((⟨"t", "m", "c"⟩ : Message), i + 1)),
        false, []⟩ : IngressState).buffer.size < Ingress.maxLength) ∧
    (Ingress.push false "b"
        ⟨Queue.init Message, 0, 0,
          (List.range 999).map (fun i => ((⟨"t", "m", "c"⟩ : Message), i + 1)),
          false, []⟩ ⟨"t", "m1000", "c"⟩).1 = .err .LOG_FILE_APPEND_FAILED := by
  constructor
  · decide
  · decide

/-- C7 amended: on every accepted ingress push (in-memory size below the
cap), the staged offset is `logEndOffset + |pendingWrites| + 1` and the
message is enqueued into the in-memory queue in every case (so the broker
loop can drain it before the disk flush completes); when the staging list
reaches `BATCH_SIZE = 1000` the flush runs synchronously (clearing the
staging list) and otherwise the single-shot flush timer is made pending;
push returns success unless it triggered the synchronous flush and that
flush's WAL append failed, in which case it returns the flush error. -/
theorem C7_amended_push_contract (appendOk : Bool) (brokerId : String)
    (s : IngressState) (m : Message)
    (hroom : s.buffer.size < Ingress.maxLength) :
    ((Ingress.push appendOk brokerId s m).2.buffer = s.buffer.enqueue m) ∧
    (s.pendingWrites.length + 1 < Ingress.BATCH_SIZE →
      (Ingress.push appendOk brokerId s m).2.pendingWrites =
        s.pendingWrites ++ [(m, s.logEndOffset + s.pendingWrites.length + 1)] ∧
      (Ingress.push appendOk brokerId s m).2.flushTimer = true ∧
      (Ingress.push appendOk brokerId s m).1 = .ok true ∧
      (Ingress.push appendOk brokerId s m).2.logEndOffset = s.logEndOffset) ∧
    (Ingress.BATCH_SIZE ≤ s.pendingWrites.length + 1 →
      (Ingress.push appendOk brokerId s m).2.pendingWrites = [] ∧
      (appendOk = true →
        (Ingress.push appendOk brokerId s m).1 = .ok true ∧
        (Ingress.push appendOk brokerId s m).2.logEndOffset =
          s.logEndOffset + s.pendingWrites.length + 1) ∧
      (appendOk = false →
        (Ingress.push appendOk brokerId s m).1 = .err .LOG_FILE_APPEND_FAILED)) ∧
    ((Ingress.push appendOk brokerId s m).1 = .ok true ↔
      (appendOk = true ∨ s.pendingWrites.length + 1 < Ingress.BATCH_SIZE)) := by
  unfold Ingress.push
  rw [if_neg (Nat.not_le.mpr hroom)]
  dsimp only
  have hlen1 : (s.pendingWrites ++
      [(m, s.logEndOffset + s.pendingWrites.length + 1)]).length =
      s.pendingWrites.length + 1 := by
    simp
  by_cases hbs : Ingress.BATCH_SIZE ≤ s.pendingWrites.length + 1
  · rw [if_pos (by omega)]
    unfold Ingress.flushPendingWrites
    rw [if_neg (by simp)]
    dsimp only
    cases appendOk
    · rw [if_neg (by simp)]
      dsimp only
      refine ⟨rfl, fun hc => absurd hbs (Nat.not_le.mpr hc), ?_, ?_⟩
      · exact fun _ => ⟨rfl, fun hc => by simp at hc, fun _ => rfl⟩
      · constructor
        · intro hc
          simp at hc
        · intro hc
          rcases hc with hc | hc
          · simp at hc
          · omega
    · rw [if_pos rfl]
      dsimp only
      refine ⟨rfl, fun hc => absurd hbs (Nat.not_le.mpr hc), ?_, ?_⟩
      · refine fun _ => ⟨rfl, fun _ => ⟨rfl, ?_⟩, fun hc => by simp at hc⟩
        simp only [List.getLast?_concat, Option.map_some', Option.getD_some]
      · exact ⟨fun _ => Or.inl rfl, fun _ => rfl⟩
  · rw [if_neg (by omega)]
    refine ⟨rfl, ?_, fun hc => absurd hc hbs, ⟨fun _ => Or.inr (by omega), fun _ => rfl⟩⟩
    exact fun _ => ⟨rfl, rfl, rfl, rfl⟩

/-- Witness for the amended C7: a push on a fresh ingress state stages
offset 1, arms the timer, and succeeds. -/
theorem C7_amended_push_contract_witness :
    (Ingress.push true "b" ⟨Queue.init Message, 0, 0, [], false, []⟩
        ⟨"t", "m1", "c"⟩).2.pendingWrites = [(⟨"t", "m1", "c"⟩, 1)] ∧
    (Ingress.push true "b" ⟨Queue.init Message, 0, 0, [], false, []⟩
        ⟨"t", "m1", "c"⟩).2.flushTimer = true ∧
    (Ingress.push true "b" ⟨Queue.init Message, 0, 0, [], false, []⟩
        ⟨"t", "m1", "c"⟩).1 = .ok true ∧
    (Ingress.push true "b" ⟨Queue.init Message, 0, 0, [], false, []⟩
        ⟨"t", "m1", "c"⟩).2.logEndOffset = 0 :=
  (C7_amended_push_contract true "b" ⟨Queue.init Message, 0, 0, [], false, []⟩
    ⟨"t", "m1", "c"⟩ (by decide)).2.1 (by decide)

/-- Counterexample to C3 as stated: on a freshly constructed ingress
buffer, one accepted `push` (staged, enqueued, batched flush still
pending) followed by a broker drain `batchExtract(1)` leaves
`readOffset = 1 > logEndOffset = 0` — the invariant
`logEndOffset ≥ readOffset` fails exactly in the window where a message
was drained before its batched WAL flush completed. -/
theorem C3_drain_before_flush_breaks_invariant :
    (Ingress.batchExtract
        (Ingress.push true "b" (Ingress.recover [] 0 0) ⟨"t", "m1", "c"⟩).2 1).2.readOffset = 1 ∧
    (Ingress.batchExtract
        (Ingress.push true "b" (Ingress.recover [] 0 0) ⟨"t", "m1", "c"⟩).2 1).2.logEndOffset = 0 := by
  decide

/-- C3 amended: `logEndOffset ≥ readOffset ≥ 0` holds for every Partition
after every operation (including recovery); for the IngressBuffer the
invariant that actually holds after every operation (in traces whose WAL
appends succeed) is `logEndOffset + |pendingWrites| ≥ readOffset` — the
plain `logEndOffset ≥ readOffset` is restored whenever no staged write is
pending, but a broker drain of messages whose batched flush has not yet
completed can push `readOffset` beyond `logEndOffset`. -/
theorem C3_amended_offset_invariant :
    (∀ (topicId : String) (partitionId : Nat) (s : PartitionState),
      Partition.Reachable topicId partitionId s → s.readOffset ≤ s.logEndOffset) ∧
    (∀ (brokerId : String) (i : IngressState), Ingress.Reachable brokerId i →
      i.readOffset ≤ i.logEndOffset + i.pendingWrites.length ∧
      (i.pendingWrites = [] → i.readOffset ≤ i.logEndOffset)) := by
  constructor
  · intro topicId partitionId s h
    exact Partition.reachable_offset_invariant h
  · intro brokerId i h
    obtain ⟨items, _, hcount, hle, _⟩ := Ingress.reachable_inv h
    constructor
    · exact hle
    · intro hnil
      rw [hnil] at hle
      simpa using hle

/-- Witness for the amended C3 at concrete reachable states. -/
theorem C3_amended_offset_invariant_witness :
    (Partition.recover ["r"] 1 0).readOffset ≤ (Partition.recover ["r"] 1 0).logEndOffset ∧
    (Ingress.recover [] 0 0).readOffset ≤
      (Ingress.recover [] 0 0).logEndOffset + (Ingress.recover [] 0 0).pendingWrites.length := by
  have h := C3_amended_offset_invariant
  refine ⟨h.1 "t" 0 _ (Partition.Reachable.recover ["r"] 1 0 (by decide)), ?_⟩
  exact (h.2 "b" _ (Ingress.Reachable.recover [] 0 0 (by decide) (by decide)
    (by intro l hl; simp at hl))).1

/-! ## SHA-256 (`node:crypto` `createHash('sha256')`)

`topic.ts` routes messages through the Node crypto library's SHA-256.  The
library call is embedded as the FIPS 180-4 algorithm over byte lists, with
32-bit words as `Nat` reduced mod `2^32`. -/

namespace SHA256

def add32 (a b : Nat) : Nat := (a + b) % 4294967296

def xor32 (a b : Nat) : Nat := Nat.xor a b

def and32 (a b : Nat) : Nat := Nat.land a b

def not32 (a : Nat) : Nat := Nat.xor a 4294967295

def shr (n x : Nat) : Nat := Nat.shiftRight x n

def rotateR (n x : Nat) : Nat :=
  (Nat.lor (Nat.shiftRight x n) (Nat.shiftLeft x (32 - n))) % 4294967296

def bigSig0 (x : Nat) : Nat := xor32 (rotateR 2 x) (xor32 (rotateR 13 x) (rotateR 22 x))

def bigSig1 (x : Nat) : Nat := xor32 (rotateR 6 x) (xor32 (rotateR 11 x) (rotateR 25 x))

def smallSig0 (x : Nat) : Nat := xor32 (rotateR 7 x) (xor32 (rotateR 18 x) (shr 3 x))

def smallSig1 (x : Nat) : Nat := xor32 (rotateR 17 x) (xor32 (rotateR 19 x) (shr 10 x))

def ch (x y z : Nat) : Nat := xor32 (and32 x y) (and32 (not32 x) z)

def maj (x y z : Nat) : Nat := xor32 (and32 x y) (xor32 (and32 x z) (and32 y z))

def K : List Nat :=
  [1116352408, 1899447441, 3049323471, 3921009573, 961987163,
   1508970993, 2453635748, 2870763221, 3624381080, 310598401,
   607225278, 1426881987, 1925078388, 2162078206, 2614888103,
   3248222580, 3835390401, 4022224774, 264347078, 604807628,
   770255983, 1249150122, 1555081692, 1996064986, 2554220882,
   2821834349, 2952996808, 3210313671, 3336571891, 3584528711,
   113926993, 338241895, 666307205, 773529912, 1294757372,
   1396182291, 1695183700, 1986661051, 2177026350, 2456956037,
   2730485921, 2820302411, 3259730800, 3345764771, 3516065817,
   3600352804, 4094571909, 275423344, 430227734, 506948616,
   659060556, 883997877, 958139571, 1322822218, 1537002063,
   1747873779, 1955562222, 2024104815, 2227730452, 2361852424,
   2428436474, 2756734187, 3204031479, 3329325298]

def H0 : List Nat :=
  [1779033703, 3144134277, 1013904242, 2773480762,
   1359893119, 2600822924, 528734635, 1541459225]

/-- FIPS 180-4 padding: `0x80`, zeros to 56 mod 64, 8-byte big-endian bit
length. -/
def padMessage (msg : List Nat) : List Nat :=
  let bitLen := msg.length * 8
  let padZeros := (119 - msg.length % 64) % 64
  msg ++ [128] ++ List.replicate padZeros 0 ++
    (List.range 8).map (fun i => bitLen / (256 ^ (7 - i)) % 256)

/-- Big-endian 4-byte groups to 32-bit words. -/
def toWords : List Nat → List Nat
  | b0 :: b1 :: b2 :: b3 :: rest =>
    (b0 * 16777216 + b1 * 65536 + b2 * 256 + b3) :: toWords rest
  | _ => []

/-- Split the word list into 16-word blocks. -/
def toBlocks : List Nat → List (List Nat)
  | w0 :: w1 :: w2 :: w3 :: w4 :: w5 :: w6 :: w7 ::
    w8 :: w9 :: w10 :: w11 :: w12 :: w13 :: w14 :: w15 :: rest =>
    [w0, w1, w2, w3, w4, w5, w6, w7, w8, w9, w10, w11, w12, w13, w14, w15] ::
      toBlocks rest
  | [] => []
  | ws => [ws]

/-- Message schedule: extend 16 words to 64. -/
def extendWords (ws : List Nat) : List Nat :=
  (List.range 48).foldl
    (fun acc _ =>
      let n := acc.length
      acc ++ [add32 (smallSig1 (acc.getD (n - 2) 0))
        (add32 (acc.getD (n - 7) 0)
          (add32 (smallSig0 (acc.getD (n - 15) 0)) (acc.getD (n - 16) 0)))])
    ws

/-- One round of the compression function on the state `[a,b,c,d,e,f,g,h]`. -/
def compressStep (st : List Nat) (kw : Nat × Nat) : List Nat :=
  match st with
  | [a, b, c, d, e, f, g, h] =>
    let t1 := add32 h (add32 (bigSig1 e) (add32 (ch e f g) (add32 kw.1 kw.2)))
    let t2 := add32 (bigSig0 a) (maj a b c)
    [add32 t1 t2, a, b, c, add32 d t1, e, f, g]
  | st => st

/-- Compress one 16-word block into the running hash state. -/
def compressBlock (h : List Nat) (block : List Nat) : List Nat :=
  let w := extendWords block
  let final := (K.zip w).foldl compressStep h
  List.zipWith add32 h final

/-- SHA-256 digest bytes of a byte-list message. -/
def sha256Bytes (msg : List Nat) : List Nat :=
  let blocks := toBlocks (toWords (padMessage msg))
  let hfinal := blocks.foldl compressBlock H0
  (hfinal.map (fun w => [w / 16777216 % 256, w / 65536 % 256, w / 256 % 256, w % 256])).flatten

/-- Lowercase hex digit characters. -/
def hexDigitChar (n : Nat) : Char := "0123456789abcdef".data.getD n '0'

def byteToHex (b : Nat) : List Char := [hexDigitChar (b / 16), hexDigitChar (b % 16)]

/-- UTF-8 encoding of one character (`hash.update(string)` uses UTF-8). -/
def utf8EncodeChar (c : Char) : List Nat :=
  let n := c.toNat
  if n < 128 then [n]
  else if n < 2048 then [192 + n / 64, 128 + n % 64]
  else if n < 65536 then [224 + n / 4096, 128 + n / 64 % 64, 128 + n % 64]
  else [240 + n / 262144, 128 + n / 4096 % 64, 128 + n / 64 % 64, 128 + n % 64]

def utf8Bytes (l : List Char) : List Nat := (l.map utf8EncodeChar).flatten

/-- `createHash('sha256').update(s).digest('hex')`. -/
def sha256Hex (s : String) : String :=
  ⟨((sha256Bytes (utf8Bytes s.data)).map byteToHex).flatten⟩

theorem hexDigitChar_mem (n : Nat) : hexDigitChar n ∈ "0123456789abcdef".data := by
  unfold hexDigitChar
  by_cases h : n < "0123456789abcdef".data.length
  · rw [List.getD_eq_getElem _ _ h]
    exact List.getElem_mem h
  · rw [List.getD_eq_default _ _ (Nat.le_of_not_lt h)]
    decide

theorem compressStep_length (st : List Nat) (kw : Nat × Nat) :
    (compressStep st kw).length = st.length := by
  rcases st with _ | ⟨a, _ | ⟨b, _ | ⟨c, _ | ⟨d, _ | ⟨e, _ | ⟨f, _ | ⟨g, _ | ⟨h, _ | ⟨x, rest⟩⟩⟩⟩⟩⟩⟩⟩⟩ <;> rfl

theorem foldl_compressStep_length (l : List (Nat × Nat)) (h : List Nat) :
    (l.foldl compressStep h).length = h.length := by
  induction l generalizing h with
  | nil => rfl
  | cons kw rest ih =>
    rw [List.foldl_cons, ih, compressStep_length]

theorem compressBlock_length (h block : List Nat) (hl : h.length = 8) :
    (compressBlock h block).length = 8 := by
  unfold compressBlock
  rw [List.length_zipWith, foldl_compressStep_length]
  omega

theorem foldl_compressBlock_length (blocks : List (List Nat)) (h : List Nat)
    (hl : h.length = 8) : (blocks.foldl compressBlock h).length = 8 := by
  induction blocks generalizing h with
  | nil => exact hl
  | cons b rest ih =>
    rw [List.foldl_cons]
    exact ih _ (compressBlock_length _ _ hl)

theorem sha256Bytes_ne_nil (msg : List Nat) : sha256Bytes msg ≠ [] := by
  unfold sha256Bytes
  dsimp only
  have h8 := foldl_compressBlock_length (toBlocks (toWords (padMessage msg))) H0 rfl
  cases hf : (toBlocks (toWords (padMessage msg))).foldl compressBlock H0 with
  | nil => rw [hf] at h8; simp at h8
  | cons w ws => simp

theorem sha256Hex_data_ne_nil (s : String) : (sha256Hex s).data ≠ [] := by
  unfold sha256Hex
  cases hb : sha256Bytes (utf8Bytes s.data) with
  | nil => exact absurd hb (sha256Bytes_ne_nil _)
  | cons b bs => simp [byteToHex]

theorem sha256Hex_mem_hex {s : String} {ch : Char} (h : ch ∈ (sha256Hex s).data) :
    ch ∈ "0123456789abcdef".data := by
  unfold sha256Hex at h
  rw [List.mem_flatten] at h
  obtain ⟨l, hl, hchl⟩ := h
  obtain ⟨b, _, rfl⟩ := List.mem_map.mp hl
  unfold byteToHex at hchl
  rcases List.mem_cons.mp hchl with rfl | h2
  · exact hexDigitChar_mem _
  · rcases List.mem_cons.mp h2 with rfl | h3
    · exact hexDigitChar_mem _
    · simp at h3

end SHA256

/-! ## Topic and routing (`topic.ts`) -/

/-- JS `parseInt(s, 16)`: parse the longest hex prefix; `NaN` (modelled as
`none`) when no leading hex digit. -/
def isHexDigit (c : Char) : Bool := "0123456789abcdef".data.contains c

/-- Value of a hex digit (its index in the lowercase digit table). -/
def hexVal (c : Char) : Nat := "0123456789abcdef".data.findIdx (fun x => x == c)

def hexValList (ds : List Char) : Nat := ds.foldl (fun acc c => 16 * acc + hexVal c) 0

def jsParseIntHex (s : String) : Option Nat :=
  match s.data.takeWhile isHexDigit with
  | [] => none
  | ds => some (hexValList ds)

theorem hexVal_lt_16 {c : Char} (h : isHexDigit c = true) : hexVal c < 16 := by
  have hmem : c ∈ "0123456789abcdef".data := by
    simpa [isHexDigit] using h
  fin_cases hmem <;> decide

theorem hexValList_aux_lt {ds : List Char} (h : ∀ c ∈ ds, isHexDigit c = true) :
    ∀ acc : Nat, ds.foldl (fun acc c => 16 * acc + hexVal c) acc <
      16 ^ ds.length * (acc + 1) := by
  induction ds with
  | nil =>
    intro acc
    simp
  | cons c rest ih =>
    intro acc
    rw [List.foldl_cons]
    have hc := hexVal_lt_16 (h c (List.mem_cons_self c rest))
    have h2 := ih (fun x hx => h x (List.mem_cons_of_mem c hx)) (16 * acc + hexVal c)
    calc rest.foldl (fun acc c => 16 * acc + hexVal c) (16 * acc + hexVal c)
        < 16 ^ rest.length * (16 * acc + hexVal c + 1) := h2
      _ ≤ 16 ^ rest.length * (16 * (acc + 1)) := by
          apply Nat.mul_le_mul_left
          omega
      _ = 16 ^ (c :: rest).length * (acc + 1) := by
          rw [List.length_cons, Nat.pow_succ]
          ring

theorem hexValList_lt {ds : List Char} (h : ∀ c ∈ ds, isHexDigit c = true) :
    hexValList ds < 16 ^ ds.length := by
  have := hexValList_aux_lt h 0
  simpa using this

theorem takeWhile_eq_self_of_forall {ds : List Char}
    (h : ∀ c ∈ ds, isHexDigit c = true) : ds.takeWhile isHexDigit = ds := by
  induction ds with
  | nil => rfl
  | cons c rest ih =>
    rw [List.takeWhile_cons, h c (List.mem_cons_self c rest)]
    rw [ih (fun x hx => h x (List.mem_cons_of_mem c hx))]
    simp

/-- Parsing the first 8 hex characters of a SHA-256 digest always yields a
number below `16^8 = 2^32`. -/
theorem jsParseIntHex_sha256_take8 (s : String) :
    jsParseIntHex ⟨(SHA256.sha256Hex s).data.take 8⟩ =
      some (hexValList ((SHA256.sha256Hex s).data.take 8)) ∧
    hexValList ((SHA256.sha256Hex s).data.take 8) < 4294967296 := by
  have hhex : ∀ c ∈ (SHA256.sha256Hex s).data.take 8, isHexDigit c = true := by
    intro c hc
    have := SHA256.sha256Hex_mem_hex (List.mem_of_mem_take hc)
    simpa [isHexDigit] using this
  have hne : (SHA256.sha256Hex s).data.take 8 ≠ [] := by
    have := SHA256.sha256Hex_data_ne_nil s
    cases hd : (SHA256.sha256Hex s).data with
    | nil => exact absurd hd this
    | cons c cs => simp [hd]
  constructor
  · unfold jsParseIntHex
    dsimp only
    rw [takeWhile_eq_self_of_forall hhex]
    cases hd : (SHA256.sha256Hex s).data.take 8 with
    | nil => exact absurd hd hne
    | cons c cs => rfl
  · have hlt := hexValList_lt hhex
    have hlen : ((SHA256.sha256Hex s).data.take 8).length ≤ 8 := by
      simp
    calc hexValList ((SHA256.sha256Hex s).data.take 8)
        < 16 ^ ((SHA256.sha256Hex s).data.take 8).length := hlt
      _ ≤ 16 ^ 8 := Nat.pow_le_pow_right (by omega) hlen
      _ = 4294967296 := by norm_num

/-- Topic state: id, fixed partition count, and the partition map
(`Map<PartitionId, Partition>` keyed 0 … N-1). -/
structure TopicState where
  topicId : String
  noOfPartitions : Nat
  partitions : List (Nat × PartitionState)
deriving DecidableEq, Repr

namespace Topic

/-- `setupPartitions()`: `for i in 0..N-1: partitions.set(i, new Partition(i, topicId))`
(each partition constructed over its own fresh files). -/
def setupPartitions (noOfPartitions : Nat) : List (Nat × PartitionState) :=
  (List.range noOfPartitions).map (fun i => (i, Partition.recover [] 0 0))

/-- `new Topic(topicId, noOfPartitions)`. -/
def init (topicId : String) (noOfPartitions : Nat) : TopicState :=
  ⟨topicId, noOfPartitions, setupPartitions noOfPartitions⟩

/-- `topic.ts` `assignPartition(messageId)`: SHA-256 the message id as hex,
`parseInt` the first 8 hex characters (a failed parse is JS `NaN`, whose
modulo is `NaN` and is found in no partition map), take it mod
`noOfPartitions`, and check the partition exists. -/
def assignPartition (t : TopicState) (messageId : String) : Response Nat :=
  let hash := SHA256.sha256Hex messageId
  match jsParseIntHex ⟨hash.data.take 8⟩ with
  | none => .err .PARTITION_NOT_FOUND
  | some hashValue =>
    let partitionId := hashValue % t.noOfPartitions
    if (mapGet t.partitions partitionId).isSome then .ok partitionId
    else .err .PARTITION_NOT_FOUND

/-- `topic.ts` `push(message)`: route by `assignPartition(message.messageId)`,
look the partition up, and delegate to its `push`. -/
def push (appendOk : Bool) (t : TopicState) (m : Message) : Response Unit × TopicState :=
  match assignPartition t m.messageId with
  | .err e => (.err e, t)
  | .ok partitionId =>
    match mapGet t.partitions partitionId with
    | none => (.err .PARTITION_NOT_FOUND, t)
    | some p =>
      let r := Partition.push appendOk t.topicId partitionId p m
      (r.1, { t with partitions := mapSet t.partitions partitionId r.2 })

/-- The routing formula in the spec's words (§4.5): first 8 hex characters
of the SHA-256 digest, read as a big-endian unsigned integer, modulo `N`. -/
def routeIndexSpec (messageId : String) (noOfPartitions : Nat) : Nat :=
  hexValList ((SHA256.sha256Hex messageId).data.take 8) % noOfPartitions

theorem mapGet_setupPartitions {N k : Nat} (hk : k < N) :
    mapGet (setupPartitions N) k = some (Partition.recover [] 0 0) := by
  induction N with
  | zero => omega
  | succ N ih =>
    unfold setupPartitions
    rw [List.range_succ, List.map_append]
    rcases Nat.lt_or_ge k N with hlt | hge
    · exact mapGet_append_of_some _ _ (ih hlt)
    · have hkN : k = N := by omega
      subst hkN
      have hnone : mapGet ((List.range k).map
          (fun i => (i, Partition.recover [] 0 0))) k = none := by
        apply mapGet_eq_none_of_forall
        intro e he
        obtain ⟨i, hi, rfl⟩ := List.mem_map.mp he
        have := List.mem_range.mp hi
        omega
      rw [List.map_singleton, mapGet_append_single _ _ hnone, if_pos rfl]

theorem partition_push_ne_not_found (appendOk : Bool) (topicId : String)
    (partitionId : Nat) (s : PartitionState) (m : Message) :
    (Partition.push appendOk topicId partitionId s m).1 ≠ .err .PARTITION_NOT_FOUND := by
  unfold Partition.push
  by_cases hfull : Partition.maxBufferSize ≤ s.buffer.size
  · rw [if_pos hfull]
    simp
  · rw [if_neg hfull]
    cases appendOk
    · simp
    · simp

end Topic

/-- C2: for a topic of `N ≥ 1` partitions, `assignPartition` picks exactly
`parseInt(sha256(messageId).substring(0, 8), 16) % N` — the spec's
big-endian-u32-of-first-8-hex-chars formula, whose value is below `2^32` —
and `Topic.push` delegates the message to that partition; routing is a
pure function of `(messageId, N)`, hence deterministic. -/
theorem C2_routing_is_sha256_mod (messageId topicId : String) (N : Nat) (hN : 1 ≤ N) :
    Topic.assignPartition (Topic.init topicId N) messageId =
      .ok (Topic.routeIndexSpec messageId N) ∧
    Topic.routeIndexSpec messageId N =
      hexValList ((SHA256.sha256Hex messageId).data.take 8) % N ∧
    hexValList ((SHA256.sha256Hex messageId).data.take 8) < 4294967296 ∧
    (∀ (appendOk : Bool) (m : Message), m.messageId = messageId →
      (Topic.push appendOk (Topic.init topicId N) m).2.partitions =
        mapSet (Topic.init topicId N).partitions (Topic.routeIndexSpec messageId N)
          (Partition.push appendOk topicId (Topic.routeIndexSpec messageId N)
            (Partition.recover [] 0 0) m).2) ∧
    (∀ s2 : String, s2 = messageId →
      Topic.assignPartition (Topic.init topicId N) s2 =
        Topic.assignPartition (Topic.init topicId N) messageId) := by
  obtain ⟨hparse, hbound⟩ := jsParseIntHex_sha256_take8 messageId
  have hpid : hexValList ((SHA256.sha256Hex messageId).data.take 8) % N < N :=
    Nat.mod_lt _ (by omega)
  have hassign : Topic.assignPartition (Topic.init topicId N) messageId =
      .ok (Topic.routeIndexSpec messageId N) := by
    unfold Topic.assignPartition
    simp only [Topic.init]
    rw [hparse]
    dsimp only
    rw [if_pos (by rw [Topic.mapGet_setupPartitions hpid]; rfl)]
    rfl
  refine ⟨hassign, rfl, hbound, ?_, fun s2 hs2 => by rw [hs2]⟩
  intro appendOk m hm
  unfold Topic.push
  rw [hm, hassign]
  simp only [Topic.init]
  rw [show Topic.routeIndexSpec messageId N =
    hexValList ((SHA256.sha256Hex messageId).data.take 8) % N from rfl]
  rw [Topic.mapGet_setupPartitions hpid]

/-- Witness for C2: `messageId = "m1"` with 4 partitions routes (like the
reference `sha256("m1")[:8] mod 4`) to partition 1. -/
theorem C2_routing_is_sha256_mod_witness :
    Topic.assignPartition (Topic.init "t" 4) "m1" = .ok (Topic.routeIndexSpec "m1" 4) ∧
    Topic.routeIndexSpec "m1" 4 = 1 :=
  ⟨(C2_routing_is_sha256_mod "m1" "t" 4 (by decide)).1, by decide⟩

/-- C10: with partitions `0 … N-1` created at construction, routing always
lands on an existing partition — the computed index is below `N` — so the
`PARTITION_NOT_FOUND` branches of `assignPartition` and `Topic.push` never
fire. -/
theorem C10_partition_lookup_never_fails (topicId messageId : String) (N : Nat)
    (hN : 1 ≤ N) :
    (∃ pid, pid < N ∧
      Topic.assignPartition (Topic.init topicId N) messageId = .ok pid) ∧
    (∀ (appendOk : Bool) (m : Message),
      (Topic.push appendOk (Topic.init topicId N) m).1 ≠ .err .PARTITION_NOT_FOUND) := by
  constructor
  · obtain ⟨hparse, _⟩ := jsParseIntHex_sha256_take8 messageId
    have hpid : hexValList ((SHA256.sha256Hex messageId).data.take 8) % N < N :=
      Nat.mod_lt _ (by omega)
    refine ⟨Topic.routeIndexSpec messageId N, Nat.mod_lt _ (by omega), ?_⟩
    unfold Topic.assignPartition
    simp only [Topic.init]
    rw [hparse]
    dsimp only
    rw [if_pos (by rw [Topic.mapGet_setupPartitions hpid]; rfl)]
    rfl
  · intro appendOk m
    obtain ⟨hparse, _⟩ := jsParseIntHex_sha256_take8 m.messageId
    have hpid : hexValList ((SHA256.sha256Hex m.messageId).data.take 8) % N < N :=
      Nat.mod_lt _ (by omega)
    have hassign : Topic.assignPartition (Topic.init topicId N) m.messageId =
        .ok (Topic.routeIndexSpec m.messageId N) := by
      unfold Topic.assignPartition
      simp only [Topic.init]
      rw [hparse]
      dsimp only
      rw [if_pos (by rw [Topic.mapGet_setupPartitions hpid]; rfl)]
      rfl
    unfold Topic.push
    rw [hassign]
    simp only [Topic.init]
    rw [show Topic.routeIndexSpec m.messageId N =
      hexValList ((SHA256.sha256Hex m.messageId).data.take 8) % N from rfl]
    rw [Topic.mapGet_setupPartitions hpid]
    exact Topic.partition_push_ne_not_found appendOk topicId _ _ m

/-- Witness for C10 at `messageId = "m1"`, `N = 4`. -/
theorem C10_partition_lookup_never_fails_witness :
    (Topic.push true (Topic.init "t" 4) ⟨"t", "m1", "c"⟩).1 ≠
      .err .PARTITION_NOT_FOUND :=
  (C10_partition_lookup_never_fails "t" "m1" 4 (by decide)).2 true ⟨"t", "m1", "c"⟩

/-! ## TPC map and consumer registration (`broker.ts` / `tpc-helper.ts`)

`internalTPCMap : Map<TopicId, Map<PartitionId, ConsumerId>>`, embedded as
insertion-ordered association lists (iteration order of a JS `Map` is
insertion order, which `registerConsumer` relies on to pick the FIRST
matching partition). -/

/-- Lookup of a topic's partition map. -/
def tpcGet (tpc : List (String × List (Nat × String))) (topicId : String) :
    Option (List (Nat × String)) :=
  (tpc.find? (fun e => e.1 = topicId)).map (fun e => e.2)

/-- In-place mutation of the topic's (shared) partition-map object, as seen
from the outer map: the entry for `topicId` now holds the updated map. -/
def tpcSet (tpc : List (String × List (Nat × String))) (topicId : String)
    (pm : List (Nat × String)) : List (String × List (Nat × String)) :=
  tpc.map (fun e => if e.1 = topicId then (topicId, pm) else e)

/-- `broker.ts` `registerConsumer(topicId, consumerId)`: `TopicNotFound` for
an unknown topic; else return the partition already holding `consumerId`
(first loop, idempotent re-registration); else assign the first partition
whose consumer slot is `""` and persist (`writeTPCLog`); else
`NoPartitionAvailable`. -/
def registerConsumer (tpc : List (String × List (Nat × String)))
    (topicId consumerId : String) :
    Response Nat × List (String × List (Nat × String)) :=
  match tpcGet tpc topicId with
  | none => (.err .TOPIC_NOT_FOUND, tpc)
  | some partitionMap =>
    match partitionMap.find? (fun e => e.2 = consumerId) with
    | some e => (.ok e.1, tpc)
    | none =>
      match partitionMap.find? (fun e => e.2 = "") with
      | some e0 =>
        (.ok e0.1, tpcSet tpc topicId (mapSet partitionMap e0.1 consumerId))
      | none => (.err .NO_PARTITION_AVAILABLE, tpc)

theorem tpcGet_tpcSet_self {tpc : List (String × List (Nat × String))}
    {topicId : String} {pm0 : List (Nat × String)}
    (h : tpcGet tpc topicId = some pm0) (pm : List (Nat × String)) :
    tpcGet (tpcSet tpc topicId pm) topicId = some pm := by
  unfold tpcGet tpcSet at *
  induction tpc with
  | nil => simp [List.find?] at h
  | cons e es ih =>
    by_cases he : e.1 = topicId
    · simp only [List.map_cons, if_pos he, List.find?]
      simp
    · simp only [List.map_cons, if_neg he, List.find?] at h ⊢
      rw [show (decide (e.1 = topicId)) = false from decide_eq_false he] at h ⊢
      exact ih h

theorem find_value_in_replaced {pm : List (Nat × String)} {k : Nat} {c : String}
    (hnoc : ∀ e ∈ pm, e.2 ≠ c)
    (hex : ∃ e ∈ pm, e.1 = k) :
    (pm.map (fun e => if e.1 = k then (k, c) else e)).find?
      (fun e => e.2 = c) = some (k, c) := by
  induction pm with
  | nil => simp at hex
  | cons a as ih =>
    rw [List.map_cons]
    by_cases ha : a.1 = k
    · rw [if_pos ha]
      simp [List.find?]
    · rw [if_neg ha]
      have hav : (decide (a.2 = c)) = false :=
        decide_eq_false (hnoc a (List.mem_cons_self a as))
      simp only [List.find?, hav]
      apply ih (fun e he => hnoc e (List.mem_cons_of_mem a he))
      rcases hex with ⟨e, he, hek⟩
      rcases List.mem_cons.mp he with rfl | he2
      · exact absurd hek ha
      · exact ⟨e, he2, hek⟩

theorem filter_value_in_replaced {pm : List (Nat × String)} {k : Nat} {c : String}
    (hnoc : ∀ e ∈ pm, e.2 ≠ c)
    (hcnt : (pm.map Prod.fst).count k = 1) :
    (pm.map (fun e => if e.1 = k then (k, c) else e)).filter
      (fun e => e.2 = c) = [(k, c)] := by
  induction pm with
  | nil => simp at hcnt
  | cons a as ih =>
    rw [List.map_cons]
    by_cases ha : a.1 = k
    · rw [if_pos ha]
      have hzero : (as.map Prod.fst).count k = 0 := by
        rw [List.map_cons, List.count_cons] at hcnt
        simp only [ha, beq_self_eq_true, if_pos] at hcnt
        omega
      have hid : as.map (fun e => if e.1 = k then (k, c) else e) = as := by
        have h1 : as.map (fun e => if e.1 = k then (k, c) else e) = as.map id := by
          apply List.map_congr_left
          intro e he
          rw [if_neg]
          · rfl
          · intro hek
            have hk : k ∈ as.map Prod.fst := by
              rw [← hek]
              exact List.mem_map_of_mem Prod.fst he
            rw [List.count_eq_zero] at hzero
            exact hzero hk
        rw [h1, List.map_id]
      have hrest : as.filter (fun e => e.2 = c) = [] := by
        rw [List.filter_eq_nil_iff]
        intro e he
        simpa using hnoc e (List.mem_cons_of_mem a he)
      rw [hid, List.filter_cons, hrest]
      simp
    · rw [if_neg ha]
      rw [List.filter_cons]
      have hav : (decide (a.2 = c)) = false :=
        decide_eq_false (hnoc a (List.mem_cons_self a as))
      rw [hav, if_neg (by simp)]
      apply ih (fun e he => hnoc e (List.mem_cons_of_mem a he))
      rw [List.map_cons, List.count_cons] at hcnt
      have : (a.1 == k) = false := by simpa using ha
      rw [this] at hcnt
      simpa using hcnt

/-- Counterexample to C9 as stated: with topic `t` present but its only
partition held by another consumer, `registerConsumer(t, c)` fails with
`NO_PARTITION_AVAILABLE` — both times — so "succeeds both times" does not
hold for every topic in the map and every consumerId. -/
theorem C9_first_registration_can_fail :
    (registerConsumer [("t", [(0, "other")])] "t" "c").1 =
      .err .NO_PARTITION_AVAILABLE ∧
    (registerConsumer
        (registerConsumer [("t", [(0, "other")])] "t" "c").2 "t" "c").1 =
      .err .NO_PARTITION_AVAILABLE := by
  decide

/-- C9 amended: provided the topic is present, its partition ids are
distinct, `c` holds at most one partition, and the first call can succeed
(`c` is already registered or an empty slot exists), registering twice
succeeds both times with the same partition id, the second call changes
nothing (idempotent re-registration, no new assignment), and afterwards `c`
is assigned to exactly one partition of the topic. -/
theorem C9_amended_register_idempotent
    (tpc : List (String × List (Nat × String))) (t c : String)
    (pm : List (Nat × String))
    (hget : tpcGet tpc t = some pm)
    (hnd : (pm.map Prod.fst).Nodup)
    (hcount : (pm.filter (fun e => e.2 = c)).length ≤ 1)
    (havail : (∃ e ∈ pm, e.2 = c) ∨ (∃ e ∈ pm, e.2 = "")) :
    ∃ pid,
      (registerConsumer tpc t c).1 = .ok pid ∧
      (registerConsumer (registerConsumer tpc t c).2 t c).1 = .ok pid ∧
      (registerConsumer (registerConsumer tpc t c).2 t c).2 =
        (registerConsumer tpc t c).2 ∧
      ∃ pm2, tpcGet (registerConsumer tpc t c).2 t = some pm2 ∧
        (pm2.filter (fun e => e.2 = c)).length = 1 := by
  cases hfc : pm.find? (fun e => e.2 = c) with
  | some e =>
    have hreg1 : registerConsumer tpc t c = (.ok e.1, tpc) := by
      unfold registerConsumer
      rw [hget]
      dsimp only
      rw [hfc]
    have hec : e.2 = c := by simpa using List.find?_some hfc
    have hem : e ∈ pm := List.mem_of_find?_eq_some hfc
    have hone : (pm.filter (fun e => e.2 = c)).length = 1 := by
      have hmemf : e ∈ pm.filter (fun e => e.2 = c) :=
        List.mem_filter.mpr ⟨hem, by simpa using hec⟩
      have : 1 ≤ (pm.filter (fun e => e.2 = c)).length :=
        List.length_pos.mpr (List.ne_nil_of_mem hmemf)
      omega
    exact ⟨e.1, by rw [hreg1], by rw [hreg1, hreg1], by rw [hreg1, hreg1],
      pm, by rw [hreg1]; exact hget, hone⟩
  | none =>
    have hnoc : ∀ e ∈ pm, e.2 ≠ c := by
      intro e he
      have := List.find?_eq_none.mp hfc e he
      simpa using this
    have hex0 : ∃ e ∈ pm, e.2 = "" := by
      rcases havail with ⟨e, he, hec⟩ | h0
      · exact absurd hec (hnoc e he)
      · exact h0
    cases hf0 : pm.find? (fun e => e.2 = "") with
    | none =>
      exfalso
      obtain ⟨e, he, he0⟩ := hex0
      have := List.find?_eq_none.mp hf0 e he
      simp [he0] at this
    | some e0 =>
      have he00 : e0.2 = "" := by simpa using List.find?_some hf0
      have he0m : e0 ∈ pm := List.mem_of_find?_eq_some hf0
      have hset : mapSet pm e0.1 c =
          pm.map (fun e => if e.1 = e0.1 then (e0.1, c) else e) := by
        unfold mapSet
        rw [if_pos]
        rw [List.any_eq_true]
        exact ⟨e0, he0m, by simp⟩
      have hreg1 : registerConsumer tpc t c =
          (.ok e0.1, tpcSet tpc t (mapSet pm e0.1 c)) := by
        unfold registerConsumer
        rw [hget]
        dsimp only
        rw [hfc]
        dsimp only
        rw [hf0]
      have hget2 : tpcGet (tpcSet tpc t (mapSet pm e0.1 c)) t =
          some (mapSet pm e0.1 c) := tpcGet_tpcSet_self hget _
      have hfind2 : (mapSet pm e0.1 c).find? (fun e => e.2 = c) =
          some (e0.1, c) := by
        rw [hset]
        exact find_value_in_replaced hnoc ⟨e0, he0m, rfl⟩
      have hreg2 : registerConsumer (tpcSet tpc t (mapSet pm e0.1 c)) t c =
          (.ok e0.1, tpcSet tpc t (mapSet pm e0.1 c)) := by
        unfold registerConsumer
        rw [hget2]
        dsimp only
        rw [hfind2]
      have hcnt1 : (pm.map Prod.fst).count e0.1 = 1 := by
        have hmem : e0.1 ∈ pm.map Prod.fst := List.mem_map_of_mem Prod.fst he0m
        have hle := List.nodup_iff_count_le_one.mp hnd e0.1
        have hge := List.count_pos_iff.mpr hmem
        omega
      have hone : ((mapSet pm e0.1 c).filter (fun e => e.2 = c)).length = 1 := by
        rw [hset, filter_value_in_replaced hnoc hcnt1]
        rfl
      refine ⟨e0.1, by rw [hreg1], ?_, ?_, mapSet pm e0.1 c, ?_, hone⟩
      · rw [hreg1]
        rw [hreg2]
      · rw [hreg1]
        rw [hreg2]
      · rw [hreg1]
        exact hget2

/-- Witness for the amended C9: two empty partitions, registering `c1`
twice yields partition 0 both times. -/
theorem C9_amended_register_idempotent_witness :
    (registerConsumer [("t", [(0, ""), (1, "")])] "t" "c1").1 = .ok 0 ∧
    (registerConsumer
        (registerConsumer [("t", [(0, ""), (1, "")])] "t" "c1").2 "t" "c1").1 = .ok 0 := by
  obtain ⟨pid, h1, h2, h3, hpm⟩ := C9_amended_register_idempotent
    [("t", [(0, ""), (1, "")])] "t" "c1" [(0, ""), (1, "")]
    (by decide) (by decide) (by decide)
    (Or.inr ⟨(0, ""), by decide, rfl⟩)
  have hval : (registerConsumer [("t", [(0, ""), (1, "")])] "t" "c1").1 = .ok 0 := by
    decide
  have hpid : pid = 0 := by
    rw [hval] at h1
    cases h1
    rfl
  subst hpid
  exact ⟨h1, h2⟩

end PandaQ
